import Mathlib

/-!
Verification of the byte-stream compression library (Huffman, LZW and
arithmetic codecs plus the file adapter's metadata key coercion).

Shallow embedding conventions:
* a Python `bytes` value is a `List Nat` whose elements are below 256;
* Python dicts are association lists in insertion order (`dictGet` models
  `d[k]` / `k in d`, `pyInsert` models `d[k] = v`, which overwrites in
  place or appends);
* fallible operations (`KeyError`, `IndexError`) return `Option`/`Except`;
* unbounded `while` loops are embedded with an explicit fuel argument that
  dominates the loop's iteration count, so that all definitions are
  structurally recursive and compute inside the kernel.
-/

/-! ### Association lists with Python dict semantics -/

/-- `d[k]` / `k in d` on a Python dict held as an insertion-ordered list. -/
def dictGet {α β : Type} [DecidableEq α] : List (α × β) → α → Option β
  | [], _ => none
  | (k, v) :: t, a => if k = a then some v else dictGet t a

/-- `d[k] = v` on a Python dict: overwrite in place or append at the end. -/
def pyInsert {α β : Type} [DecidableEq α] : List (α × β) → α → β → List (α × β)
  | [], k, v => [(k, v)]
  | (k', v') :: t, k, v => if k' = k then (k, v) :: t else (k', v') :: pyInsert t k v

theorem dictGet_eq_none_iff {α β : Type} [DecidableEq α] (l : List (α × β)) (a : α) :
    dictGet l a = none ↔ a ∉ l.map Prod.fst := by
  induction l with
  | nil => simp [dictGet]
  | cons p t ih =>
    obtain ⟨k, v⟩ := p
    by_cases h : k = a <;> simp [dictGet, h, ih, Ne.symm]

theorem dictGet_isSome_iff {α β : Type} [DecidableEq α] (l : List (α × β)) (a : α) :
    (dictGet l a).isSome ↔ a ∈ l.map Prod.fst := by
  rcases h : dictGet l a with _ | v
  · simpa [h] using (dictGet_eq_none_iff l a).1 h
  · simp only [Option.isSome_some, true_iff]
    by_contra hmem
    rw [(dictGet_eq_none_iff l a).2 hmem] at h
    cases h

theorem mem_of_dictGet_eq_some {α β : Type} [DecidableEq α] {l : List (α × β)} {a : α} {b : β}
    (h : dictGet l a = some b) : (a, b) ∈ l := by
  induction l with
  | nil => cases h
  | cons p t ih =>
    obtain ⟨k, v⟩ := p
    by_cases hk : k = a
    · subst hk
      simp [dictGet] at h
      subst h; exact List.mem_cons_self _ _
    · simp [dictGet, hk] at h
      exact List.mem_cons_of_mem _ (ih h)

theorem dictGet_eq_some_of_mem {α β : Type} [DecidableEq α] {l : List (α × β)} {a : α} {b : β}
    (hnd : (l.map Prod.fst).Nodup) (h : (a, b) ∈ l) : dictGet l a = some b := by
  induction l with
  | nil => cases h
  | cons p t ih =>
    obtain ⟨k, v⟩ := p
    simp only [List.map_cons, List.nodup_cons] at hnd
    rcases List.mem_cons.1 h with h1 | h1
    · cases h1; simp [dictGet]
    · have hmem : a ∈ t.map Prod.fst := List.mem_map.2 ⟨(a, b), h1, rfl⟩
      have hka : k ≠ a := fun hEq => hnd.1 (hEq ▸ hmem)
      simp [dictGet, hka, ih hnd.2 h1]

theorem dictGet_append_left {α β : Type} [DecidableEq α] {l₁ : List (α × β)} {a : α} {b : β}
    (l₂ : List (α × β)) (h : dictGet l₁ a = some b) : dictGet (l₁ ++ l₂) a = some b := by
  induction l₁ with
  | nil => cases h
  | cons p t ih =>
    obtain ⟨k, v⟩ := p
    by_cases hk : k = a <;> simp_all [dictGet, hk]

theorem pyInsert_of_not_mem {α β : Type} [DecidableEq α] {l : List (α × β)} {k : α} (v : β)
    (h : k ∉ l.map Prod.fst) : pyInsert l k v = l ++ [(k, v)] := by
  induction l with
  | nil => rfl
  | cons p t ih =>
    obtain ⟨k', v'⟩ := p
    simp only [List.map_cons, List.mem_cons, not_or] at h
    have h1 : k' ≠ k := Ne.symm h.1
    simp [pyInsert, h1, ih h.2]

/-! ### Frequency tables

Both `Counter(data)` (Huffman) and the explicit `freq_table[byte] =
freq_table.get(byte, 0) + 1` loop (arithmetic) produce a dict mapping each
byte to its count, keyed in order of first occurrence.  `bumpKey` performs
one such update and `buildFreq` folds it over the input. -/

def bumpKey : List (Nat × Nat) → Nat → List (Nat × Nat)
  | [], b => [(b, 1)]
  | (k, v) :: t, b => if k = b then (k, v + 1) :: t else (k, v) :: bumpKey t b

def buildFreq (data : List Nat) : List (Nat × Nat) :=
  data.foldl bumpKey []

theorem bumpKey_keys (l : List (Nat × Nat)) (b : Nat) :
    (bumpKey l b).map Prod.fst =
      if b ∈ l.map Prod.fst then l.map Prod.fst else l.map Prod.fst ++ [b] := by
  induction l with
  | nil => simp [bumpKey]
  | cons p t ih =>
    obtain ⟨k, v⟩ := p
    by_cases h : k = b
    · subst h; simp [bumpKey]
    · simp only [bumpKey, if_neg h, List.map_cons, ih]
      by_cases hm : b ∈ t.map Prod.fst <;> simp [hm, Ne.symm h]

theorem bumpKey_keys_nodup {l : List (Nat × Nat)} (h : (l.map Prod.fst).Nodup) (b : Nat) :
    ((bumpKey l b).map Prod.fst).Nodup := by
  rw [bumpKey_keys]
  by_cases hm : b ∈ l.map Prod.fst
  · simpa [hm]
  · simpa [hm, List.nodup_append] using h

theorem bumpKey_mem_keys (l : List (Nat × Nat)) (b c : Nat) :
    c ∈ (bumpKey l b).map Prod.fst ↔ c ∈ l.map Prod.fst ∨ c = b := by
  rw [bumpKey_keys]
  by_cases hm : b ∈ l.map Prod.fst
  · simp only [if_pos hm]
    constructor
    · exact Or.inl
    · rintro (h | rfl) <;> [exact h; exact hm]
  · simp [if_neg hm]

theorem buildFreq_keys_nodup (data : List Nat) : ((buildFreq data).map Prod.fst).Nodup := by
  suffices h : ∀ l : List (Nat × Nat), (l.map Prod.fst).Nodup →
      ((data.foldl bumpKey l).map Prod.fst).Nodup by
    exact h [] (by simp)
  induction data with
  | nil => intro l hl; simpa using hl
  | cons b t ih => intro l hl; exact ih _ (bumpKey_keys_nodup hl b)

theorem foldl_bumpKey_mem_keys (data : List Nat) (b : Nat) :
    ∀ l : List (Nat × Nat), b ∈ data ∨ b ∈ l.map Prod.fst →
      b ∈ (data.foldl bumpKey l).map Prod.fst := by
  induction data with
  | nil => intro l hl; simpa using hl.resolve_left (by simp)
  | cons c t ih =>
    intro l hl
    simp only [List.foldl_cons]
    apply ih
    rcases hl with hl | hl
    · rcases List.mem_cons.1 hl with rfl | hl
      · exact Or.inr ((bumpKey_mem_keys l b b).2 (Or.inr rfl))
      · exact Or.inl hl
    · exact Or.inr ((bumpKey_mem_keys l c b).2 (Or.inl hl))

theorem mem_buildFreq_keys {data : List Nat} {b : Nat} (h : b ∈ data) :
    b ∈ (buildFreq data).map Prod.fst :=
  foldl_bumpKey_mem_keys data b [] (Or.inl h)

theorem bumpKey_snd_sum (l : List (Nat × Nat)) (b : Nat) :
    ((bumpKey l b).map Prod.snd).sum = (l.map Prod.snd).sum + 1 := by
  induction l with
  | nil => simp [bumpKey]
  | cons p t ih =>
    obtain ⟨k, v⟩ := p
    by_cases h : k = b
    · subst h
      rw [show bumpKey ((k, v) :: t) k = (k, v + 1) :: t from by simp [bumpKey]]
      simp only [List.map_cons, List.sum_cons]
      omega
    · rw [show bumpKey ((k, v) :: t) b = (k, v) :: bumpKey t b from by simp [bumpKey, h]]
      simp only [List.map_cons, List.sum_cons, ih]
      omega

theorem buildFreq_snd_sum (data : List Nat) :
    ((buildFreq data).map Prod.snd).sum = data.length := by
  suffices h : ∀ l : List (Nat × Nat),
      ((data.foldl bumpKey l).map Prod.snd).sum = (l.map Prod.snd).sum + data.length by
    simpa using h []
  induction data with
  | nil => intro l; simp
  | cons b t ih =>
    intro l
    simp only [List.foldl_cons, List.length_cons, ih, bumpKey_snd_sum]
    omega

theorem bumpKey_snd_pos {l : List (Nat × Nat)} (h : ∀ p ∈ l, 0 < p.2) (b : Nat) :
    ∀ p ∈ bumpKey l b, 0 < p.2 := by
  induction l with
  | nil => intro p hp; simp [bumpKey] at hp; simp [hp]
  | cons q t ih =>
    obtain ⟨k, v⟩ := q
    intro p hp
    by_cases hk : k = b
    · rw [show bumpKey ((k, v) :: t) b = (k, v + 1) :: t from by simp [bumpKey, hk]] at hp
      rcases List.mem_cons.1 hp with rfl | hp
      · simp
      · exact h p (List.mem_cons_of_mem _ hp)
    · rw [show bumpKey ((k, v) :: t) b = (k, v) :: bumpKey t b from by simp [bumpKey, hk]] at hp
      rcases List.mem_cons.1 hp with rfl | hp
      · exact h _ (List.mem_cons_self _ _)
      · exact ih (fun q hq => h q (List.mem_cons_of_mem _ hq)) p hp

theorem buildFreq_snd_pos (data : List Nat) : ∀ p ∈ buildFreq data, 0 < p.2 := by
  suffices h : ∀ l : List (Nat × Nat), (∀ p ∈ l, 0 < p.2) →
      ∀ p ∈ data.foldl bumpKey l, 0 < p.2 from h [] (by simp)
  induction data with
  | nil => intro l hl; simpa using hl
  | cons b t ih => intro l hl; exact ih _ (bumpKey_snd_pos hl b)

/-! ### Huffman codec (`src/src/algorithms/huffman.py`)

`HuffmanNode` carries a symbol only at leaves; merged nodes always have
both children, so the tree is the two-constructor inductive below.
`__lt__` compares frequencies only, and the priority queue is CPython's
`heapq` (binary heap in a list, `_siftdown`/`_siftup`), embedded verbatim
with a fuel argument that bounds the loop counts (`_siftdown` strictly
decreases `pos`, `_siftup` strictly increases it below `len(heap)`). -/

inductive HTree where
  | leaf (char : Nat) (freq : Nat)
  | node (freq : Nat) (left right : HTree)
deriving DecidableEq, Inhabited

def HTree.freq : HTree → Nat
  | .leaf _ f => f
  | .node f _ _ => f

/-- CPython `heapq._siftdown(heap, startpos, pos)` with `newitem = heap[pos]`
passed explicitly (the loop never reads index `pos` again before the final
write, so the initial duplicate at `pos` is immaterial).  Fuel ≥ `pos`
suffices since `pos` strictly decreases. -/
def siftdownGo : Nat → List HTree → Nat → Nat → HTree → List HTree
  | 0, heap, _, pos, newitem => heap.set pos newitem
  | fuel + 1, heap, startpos, pos, newitem =>
    if startpos < pos then
      let parentpos := (pos - 1) / 2
      let parent := heap.getD parentpos default
      if newitem.freq < parent.freq then
        siftdownGo fuel (heap.set pos parent) startpos parentpos newitem
      else heap.set pos newitem
    else heap.set pos newitem

/-- CPython `heapq.heappush`. -/
def heappush (heap : List HTree) (item : HTree) : List HTree :=
  siftdownGo heap.length (heap ++ [item]) 0 heap.length item

/-- CPython `heapq._siftup(heap, pos)` (with `newitem = heap[pos]` explicit);
its trailing `heap[pos] = newitem; _siftdown(heap, startpos, pos)` is the
base case.  Fuel ≥ `len(heap)` suffices since `pos` strictly increases. -/
def siftupGo : Nat → List HTree → Nat → Nat → HTree → List HTree
  | 0, heap, startpos, pos, newitem => siftdownGo pos heap startpos pos newitem
  | fuel + 1, heap, startpos, pos, newitem =>
    let endpos := heap.length
    let childpos := 2 * pos + 1
    if childpos < endpos then
      let rightpos := childpos + 1
      let childpos :=
        if rightpos < endpos ∧
            ¬ (heap.getD childpos default).freq < (heap.getD rightpos default).freq then
          rightpos
        else childpos
      siftupGo fuel (heap.set pos (heap.getD childpos default)) startpos childpos newitem
    else siftdownGo pos heap startpos pos newitem

/-- CPython `heapq.heappop` (returns the popped node and the new heap).
Popping an empty heap raises `IndexError` in Python; the program only pops
under a `len(heap) > 1` guard, so that branch returns junk here. -/
def heappop (heap : List HTree) : HTree × List HTree :=
  match heap.getLast? with
  | none => (default, [])
  | some lastelt =>
    let rest := heap.dropLast
    if rest.isEmpty then (lastelt, [])
    else (rest.headI, siftupGo rest.length (rest.set 0 lastelt) 0 0 lastelt)

/-- The `while len(heap) > 1` merge loop of `_build_huffman_tree`.  Each
round removes one element, so fuel ≥ `len(heap)` suffices. -/
def buildLoopGo : Nat → List HTree → List HTree
  | 0, heap => heap
  | fuel + 1, heap =>
    if 1 < heap.length then
      let p1 := heappop heap
      let p2 := heappop p1.2
      buildLoopGo fuel (heappush p2.2 (.node (p1.1.freq + p2.1.freq) p1.1 p2.1))
    else heap

/-- `HuffmanCompressor._build_huffman_tree`: single-symbol tables short-cut
to a lone leaf (`most_common(1)[0]` is that entry); otherwise all entries
are pushed in iteration order and merged pairwise. -/
def buildHuffmanTree (freq : List (Nat × Nat)) : HTree :=
  match freq with
  | [(c, f)] => .leaf c f
  | _ =>
    let heap := freq.foldl (fun h p => heappush h (.leaf p.1 p.2)) []
    (buildLoopGo heap.length heap).headI

/-- `HuffmanCompressor._generate_codes`: depth-first paths, `"0"`/`"1"`
(`false`/`true` here) on left/right edges, a bare leaf gets `"0"`.  The
Python `codes.update` merges dicts whose key sets are disjoint (leaf
symbols are distinct), so plain concatenation is the same map. -/
def genCodes : HTree → List Bool → List (Nat × List Bool)
  | .leaf c _, code => [(c, if code.isEmpty then [false] else code)]
  | .node _ l r, code => genCodes l (code ++ [false]) ++ genCodes r (code ++ [true])

/-- `_encode_data`: concatenate per-symbol codes; a missing symbol would be
a `KeyError`, hence `Option`. -/
def lookupAll (codes : List (Nat × List Bool)) : List Nat → Option (List (List Bool))
  | [] => some []
  | b :: t =>
    match dictGet codes b, lookupAll codes t with
    | some v, some vs => some (v :: vs)
    | _, _ => none

/-- `int(bits, 2)` on a bit string held most-significant-bit first. -/
def bitsToNat (bits : List Bool) : Nat :=
  bits.foldl (fun a b => 2 * a + cond b 1 0) 0

/-- `format(byte, '08b')` for a byte value (< 256, as Python `bytes`
elements always are). -/
def natToBits8 (n : Nat) : List Bool :=
  [n.testBit 7, n.testBit 6, n.testBit 5, n.testBit 4,
   n.testBit 3, n.testBit 2, n.testBit 1, n.testBit 0]

/-- The zero-bit padding `_bits_to_bytes` appends to reach a byte boundary. -/
def padBits (bits : List Bool) : List Bool :=
  bits ++ List.replicate ((8 - bits.length % 8) % 8) false

/-- The `for i in range(0, len(bits), 8)` chunking loop; fuel ≥ number of
chunks (the padded string's length is a multiple of 8). -/
def chunksToBytesGo : Nat → List Bool → List Nat
  | 0, _ => []
  | fuel + 1, bits =>
    if bits.isEmpty then []
    else bitsToNat (bits.take 8) :: chunksToBytesGo fuel (bits.drop 8)

/-- `HuffmanCompressor._bits_to_bytes`. -/
def bitsToBytes (bits : List Bool) : List Nat :=
  chunksToBytesGo (padBits bits).length (padBits bits)

/-- `_bytes_to_bits` before its `[:original_length]` truncation. -/
def bytesToBits (data : List Nat) : List Bool :=
  (data.map natToBits8).flatten

/-- The greedy decoding loop of `HuffmanCompressor.decompress`: grow
`current_code` bit by bit and emit a symbol at the first dictionary hit. -/
def decodeLoop (rev : List (List Bool × Nat)) : List Bool → List Bool → List Nat → List Nat
  | [], _, acc => acc
  | bit :: rest, current, acc =>
    let cur := current ++ [bit]
    match dictGet rev cur with
    | some sym => decodeLoop rev rest [] (acc ++ [sym])
    | none => decodeLoop rev rest cur acc

/-- The persisted Huffman metadata record; fields are optional because
`decompress` may be handed records with fields removed (`KeyError`). -/
structure HuffMeta where
  huffman_codes : Option (List (Nat × List Bool))
  original_length : Option Nat
  padding : Option Nat
deriving DecidableEq

/-- `{v: k for k, v in codes.items()}` (dict comprehension, later entries
overwrite earlier ones). -/
def pyDictOfPairs {α β : Type} [DecidableEq α] (l : List (α × β)) : List (α × β) :=
  l.foldl (fun d p => pyInsert d p.1 p.2) []

namespace HuffmanCompressor

/-- `HuffmanCompressor.compress`; `none` would be an uncaught `KeyError`
(provably unreachable). -/
def compress (data : List Nat) : Option (List Nat × HuffMeta) :=
  if data.isEmpty then some ([], ⟨some [], some 0, some 0⟩)
  else
    let freq := buildFreq data
    let root := buildHuffmanTree freq
    let codes := genCodes root []
    match lookupAll codes data with
    | none => none
    | some pieces =>
      let encoded := pieces.flatten
      let compressed := bitsToBytes encoded
      let padding := (8 - encoded.length % 8) % 8
      some (compressed, ⟨some codes, some encoded.length, some padding⟩)

/-- `HuffmanCompressor.decompress`; missing metadata fields raise
`KeyError` (the empty-input guard runs first). -/
def decompress (compressed : List Nat) (md : HuffMeta) : Except String (List Nat) :=
  if compressed.isEmpty then .ok []
  else
    match md.huffman_codes with
    | none => .error "KeyError: huffman_codes"
    | some codes =>
      match md.original_length with
      | none => .error "KeyError: original_length"
      | some ol =>
        let rev := pyDictOfPairs (codes.map (fun p => (p.2, p.1)))
        let bits := (bytesToBits compressed).take ol
        .ok (decodeLoop rev bits [] [])

end HuffmanCompressor

/-! ### Heap bookkeeping: the sift operations permute the underlying list -/

theorem coe_set_add {α : Type} (l : List α) (i : Nat) (a : α) (h : i < l.length) :
    (↑(l.set i a) : Multiset α) + {l.get ⟨i, h⟩} = ↑l + {a} := by
  induction l generalizing i with
  | nil => simp at h
  | cons x t ih =>
    cases i with
    | zero =>
      show (↑(a :: t) : Multiset α) + {x} = ↑(x :: t) + {a}
      simp only [← Multiset.cons_coe, ← Multiset.singleton_add]
      abel
    | succ j =>
      have hj : j < t.length := by simpa using h
      show (↑(x :: t.set j a) : Multiset α) + {t.get ⟨j, hj⟩} = ↑(x :: t) + {a}
      simp only [← Multiset.cons_coe, ← Multiset.singleton_add, add_assoc]
      rw [ih j hj]

theorem coe_set_set_swap {α : Type} (l : List α) (i j : Nat) (a : α)
    (hi : i < l.length) (hj : j < l.length) (hne : i ≠ j) :
    (↑((l.set i (l.get ⟨j, hj⟩)).set j a) : Multiset α) = ↑(l.set i a) := by
  have hjlen : j < (l.set i (l.get ⟨j, hj⟩)).length := by simpa using hj
  have e1 : (↑(l.set i (l.get ⟨j, hj⟩)) : Multiset α) + {l.get ⟨i, hi⟩} =
      ↑l + {l.get ⟨j, hj⟩} := coe_set_add l i _ hi
  have hget : (l.set i (l.get ⟨j, hj⟩)).get ⟨j, hjlen⟩ = l.get ⟨j, hj⟩ := by
    have h2 := List.getElem_set_ne (l := l) (i := i) (j := j) hne
      (a := l.get ⟨j, hj⟩) (by simpa using hj)
    simpa [List.get_eq_getElem] using h2
  have e2 : (↑((l.set i (l.get ⟨j, hj⟩)).set j a) : Multiset α) + {l.get ⟨j, hj⟩} =
      ↑(l.set i (l.get ⟨j, hj⟩)) + {a} := by
    have h3 := coe_set_add (l.set i (l.get ⟨j, hj⟩)) j a hjlen
    rwa [hget] at h3
  have e3 : (↑(l.set i a) : Multiset α) + {l.get ⟨i, hi⟩} = ↑l + {a} := coe_set_add l i a hi
  have key : (↑((l.set i (l.get ⟨j, hj⟩)).set j a) : Multiset α) +
      ({l.get ⟨j, hj⟩} + {l.get ⟨i, hi⟩}) =
      ↑(l.set i a) + ({l.get ⟨j, hj⟩} + {l.get ⟨i, hi⟩}) := by
    calc (↑((l.set i (l.get ⟨j, hj⟩)).set j a) : Multiset α) +
          ({l.get ⟨j, hj⟩} + {l.get ⟨i, hi⟩})
        = (↑((l.set i (l.get ⟨j, hj⟩)).set j a) + {l.get ⟨j, hj⟩}) + {l.get ⟨i, hi⟩} := by
          rw [add_assoc]
      _ = (↑(l.set i (l.get ⟨j, hj⟩)) + {a}) + {l.get ⟨i, hi⟩} := by rw [e2]
      _ = (↑(l.set i (l.get ⟨j, hj⟩)) + {l.get ⟨i, hi⟩}) + {a} := by
          rw [add_assoc, add_assoc, add_comm ({a} : Multiset α)]
      _ = (↑l + {l.get ⟨j, hj⟩}) + {a} := by rw [e1]
      _ = (↑l + {a}) + {l.get ⟨j, hj⟩} := by
          rw [add_assoc, add_assoc, add_comm ({l.get ⟨j, hj⟩} : Multiset α)]
      _ = (↑(l.set i a) + {l.get ⟨i, hi⟩}) + {l.get ⟨j, hj⟩} := by rw [e3]
      _ = ↑(l.set i a) + ({l.get ⟨j, hj⟩} + {l.get ⟨i, hi⟩}) := by
          rw [add_assoc, add_comm ({l.get ⟨i, hi⟩} : Multiset α)]
  exact add_right_cancel key

theorem length_siftdownGo (fuel : Nat) :
    ∀ heap startpos pos newitem,
      (siftdownGo fuel heap startpos pos newitem).length = heap.length := by
  induction fuel with
  | zero => intro heap sp pos ni; simp [siftdownGo]
  | succ f ih =>
    intro heap sp pos ni
    simp only [siftdownGo]
    split
    · split
      · rw [ih]; simp
      · simp
    · simp

theorem siftdownGo_coe (fuel : Nat) :
    ∀ heap startpos pos newitem, pos < heap.length →
      (↑(siftdownGo fuel heap startpos pos newitem) : Multiset HTree) =
        ↑(heap.set pos newitem) := by
  induction fuel with
  | zero => intro heap sp pos ni _; simp [siftdownGo]
  | succ f ih =>
    intro heap sp pos ni hpos
    simp only [siftdownGo]
    split
    · rename_i hsp
      split
      · rename_i hlt
        have hpp : (pos - 1) / 2 < pos := by
          have h1 : (pos - 1) / 2 ≤ pos - 1 := Nat.div_le_self _ _
          omega
        have hpplen : (pos - 1) / 2 < heap.length := lt_trans hpp hpos
        have hgd : heap.getD ((pos - 1) / 2) default = heap.get ⟨(pos - 1) / 2, hpplen⟩ := by
          rw [List.getD_eq_getElem heap default hpplen, List.get_eq_getElem]
        rw [hgd, ih _ sp _ ni (by simpa using hpplen)]
        exact coe_set_set_swap heap pos ((pos - 1) / 2) ni hpos hpplen (Nat.ne_of_gt hpp)
      · rfl
    · rfl

theorem length_siftupGo (fuel : Nat) :
    ∀ heap startpos pos newitem,
      (siftupGo fuel heap startpos pos newitem).length = heap.length := by
  induction fuel with
  | zero => intro heap sp pos ni; simp [siftupGo, length_siftdownGo]
  | succ f ih =>
    intro heap sp pos ni
    simp only [siftupGo]
    split
    · rw [ih]; simp
    · simp [length_siftdownGo]

theorem siftupGo_coe (fuel : Nat) :
    ∀ heap startpos pos newitem, pos < heap.length →
      (↑(siftupGo fuel heap startpos pos newitem) : Multiset HTree) =
        ↑(heap.set pos newitem) := by
  induction fuel with
  | zero => intro heap sp pos ni hpos; exact siftdownGo_coe _ _ _ _ _ hpos
  | succ f ih =>
    intro heap sp pos ni hpos
    simp only [siftupGo]
    split
    · rename_i hcp
      set cp := if (2 * pos + 1 + 1 < heap.length ∧
          ¬ (heap.getD (2 * pos + 1) default).freq <
            (heap.getD (2 * pos + 1 + 1) default).freq) then 2 * pos + 1 + 1
        else 2 * pos + 1 with hcpdef
      have hcplt : cp < heap.length := by
        rw [hcpdef]
        split
        · rename_i hr; exact hr.1
        · exact hcp
      have hposcp : pos ≠ cp := by
        have : 2 * pos + 1 ≤ cp := by
          rw [hcpdef]; split <;> omega
        omega
      have hgd : heap.getD cp default = heap.get ⟨cp, hcplt⟩ := by
        rw [List.getD_eq_getElem heap default hcplt, List.get_eq_getElem]
      rw [hgd, ih _ sp _ ni (by simpa using hcplt)]
      exact coe_set_set_swap heap pos cp ni hpos hcplt hposcp
    · exact siftdownGo_coe _ _ _ _ _ hpos

theorem set_length_append_singleton {α : Type} (l : List α) (x y : α) :
    (l ++ [x]).set l.length y = l ++ [y] := by
  induction l with
  | nil => rfl
  | cons a t ih => simp [List.set_cons_succ, ih]

theorem heappush_length (heap : List HTree) (item : HTree) :
    (heappush heap item).length = heap.length + 1 := by
  simp [heappush, length_siftdownGo]

theorem heappush_coe (heap : List HTree) (item : HTree) :
    (↑(heappush heap item) : Multiset HTree) = item ::ₘ ↑heap := by
  unfold heappush
  rw [siftdownGo_coe _ _ _ _ _ (by simp), set_length_append_singleton]
  rw [Multiset.cons_coe, Multiset.coe_eq_coe]
  exact List.perm_append_singleton item heap

theorem heappop_length {heap : List HTree} (h : heap ≠ []) :
    (heappop heap).2.length = heap.length - 1 := by
  rcases List.eq_nil_or_concat heap with rfl | ⟨L, b, rfl⟩
  · exact absurd rfl h
  · rw [List.concat_eq_append] at *
    unfold heappop
    rw [List.getLast?_concat, List.dropLast_concat]
    rcases L with _ | ⟨c, t⟩
    · simp
    · simp [length_siftupGo]

theorem heappop_coe {heap : List HTree} (h : heap ≠ []) :
    (↑heap : Multiset HTree) = (heappop heap).1 ::ₘ ↑(heappop heap).2 := by
  rcases List.eq_nil_or_concat heap with rfl | ⟨L, b, rfl⟩
  · exact absurd rfl h
  · rw [List.concat_eq_append] at *
    unfold heappop
    rw [List.getLast?_concat, List.dropLast_concat]
    rcases L with _ | ⟨c, t⟩
    · simp
    · simp only [List.isEmpty_cons, Bool.false_eq_true, if_false]
      have h0 : (0 : Nat) < ((c :: t).set 0 b).length := by simp
      rw [siftupGo_coe _ _ _ _ _ h0]
      show (↑(c :: t ++ [b]) : Multiset HTree) = (c :: t).headI ::ₘ ↑((b :: t).set 0 b)
      simp only [List.headI, List.set_cons_zero]
      rw [Multiset.cons_coe, Multiset.coe_eq_coe]
      exact List.Perm.cons c (List.perm_append_singleton b t)

/-- The multiset of leaf symbols of a tree. -/
def HTree.chars : HTree → List Nat
  | .leaf c _ => [c]
  | .node _ l r => l.chars ++ r.chars

/-- Leaf symbols collected over a whole heap. -/
def heapChars (h : List HTree) : Multiset Nat :=
  (h.map (fun t => (↑t.chars : Multiset Nat))).sum

theorem heapChars_eq_of_coe_eq {h₁ h₂ : List HTree}
    (h : (↑h₁ : Multiset HTree) = ↑h₂) : heapChars h₁ = heapChars h₂ := by
  have hp : h₁.Perm h₂ := Multiset.coe_eq_coe.1 h
  exact List.Perm.sum_eq (hp.map _)

theorem heapChars_cons (t : HTree) (h : List HTree) :
    heapChars (t :: h) = ↑t.chars + heapChars h := by
  simp [heapChars]

theorem heappush_chars (heap : List HTree) (item : HTree) :
    heapChars (heappush heap item) = ↑item.chars + heapChars heap := by
  have h1 : (↑(heappush heap item) : Multiset HTree) = ↑(item :: heap) := by
    rw [heappush_coe]; simp
  rw [heapChars_eq_of_coe_eq h1, heapChars_cons]

theorem heappop_chars {heap : List HTree} (h : heap ≠ []) :
    heapChars heap = ↑(heappop heap).1.chars + heapChars (heappop heap).2 := by
  have h1 : (↑heap : Multiset HTree) = ↑((heappop heap).1 :: (heappop heap).2) := by
    rw [heappop_coe h]; simp
  rw [heapChars_eq_of_coe_eq h1, heapChars_cons]

theorem buildLoopGo_spec (fuel : Nat) :
    ∀ heap : List HTree, 1 ≤ heap.length → heap.length ≤ fuel + 1 →
      ∃ t, buildLoopGo fuel heap = [t] ∧ (↑t.chars : Multiset Nat) = heapChars heap := by
  induction fuel with
  | zero =>
    intro heap h1 h2
    have h3 : heap.length = 1 := by omega
    obtain ⟨t, rfl⟩ := List.length_eq_one.1 h3
    exact ⟨t, rfl, by simp [heapChars]⟩
  | succ f ih =>
    intro heap h1 h2
    by_cases hlen : 1 < heap.length
    · have hne : heap ≠ [] := by
        intro h0; subst h0; simp at hlen
      have hne2 : (heappop heap).2 ≠ [] := by
        have hlp := heappop_length hne
        intro h0
        rw [h0] at hlp
        simp at hlp
        omega
      have hstep : buildLoopGo (f + 1) heap =
          buildLoopGo f (heappush (heappop (heappop heap).2).2
            (.node ((heappop heap).1.freq + (heappop (heappop heap).2).1.freq)
              (heappop heap).1 (heappop (heappop heap).2).1)) := by
        simp only [buildLoopGo]
        rw [if_pos hlen]
      have hlen' : (heappush (heappop (heappop heap).2).2
          (.node ((heappop heap).1.freq + (heappop (heappop heap).2).1.freq)
            (heappop heap).1 (heappop (heappop heap).2).1)).length = heap.length - 1 := by
        rw [heappush_length, heappop_length hne2, heappop_length hne]
        omega
      obtain ⟨t, ht, hchars⟩ := ih _ (by rw [hlen']; omega) (by rw [hlen']; omega)
      refine ⟨t, by rw [hstep, ht], ?_⟩
      rw [hchars, heappush_chars]
      have hc1 := heappop_chars hne
      have hc2 := heappop_chars hne2
      rw [hc1, hc2]
      show (↑((heappop heap).1.chars ++ (heappop (heappop heap).2).1.chars) : Multiset Nat) +
          heapChars (heappop (heappop heap).2).2 = _
      rw [← Multiset.coe_add, add_assoc]
    · have h3 : heap.length = 1 := by omega
      obtain ⟨t, rfl⟩ := List.length_eq_one.1 h3
      refine ⟨t, ?_, by simp [heapChars]⟩
      simp [buildLoopGo]

theorem foldl_heappush_chars (l : List (Nat × Nat)) :
    ∀ acc : List HTree,
      heapChars (l.foldl (fun h p => heappush h (.leaf p.1 p.2)) acc) =
        heapChars acc + ↑(l.map Prod.fst) := by
  induction l with
  | nil => intro acc; simp
  | cons p t ih =>
    intro acc
    simp only [List.foldl_cons, ih, heappush_chars, List.map_cons]
    show ↑(HTree.chars (.leaf p.1 p.2)) + heapChars acc + ↑(t.map Prod.fst) =
      heapChars acc + ↑(p.1 :: t.map Prod.fst)
    simp only [HTree.chars, ← Multiset.cons_coe]
    rw [Multiset.coe_nil, Multiset.cons_zero, Multiset.singleton_add, Multiset.cons_add,
      Multiset.add_cons]

theorem foldl_heappush_length (l : List (Nat × Nat)) :
    ∀ acc : List HTree,
      (l.foldl (fun h p => heappush h (.leaf p.1 p.2)) acc).length = acc.length + l.length := by
  induction l with
  | nil => intro acc; simp
  | cons p t ih =>
    intro acc
    simp only [List.foldl_cons, ih, heappush_length, List.length_cons]
    omega

theorem buildHuffmanTree_chars {freq : List (Nat × Nat)} (h : freq ≠ []) :
    (↑(buildHuffmanTree freq).chars : Multiset Nat) = ↑(freq.map Prod.fst) := by
  match freq with
  | [] => exact absurd rfl h
  | [(c, f)] => simp [buildHuffmanTree, HTree.chars]
  | p :: q :: rest =>
    show (↑((buildLoopGo ((p :: q :: rest).foldl (fun h p => heappush h (.leaf p.1 p.2)) []).length
        ((p :: q :: rest).foldl (fun h p => heappush h (.leaf p.1 p.2)) [])).headI).chars :
        Multiset Nat) = _
    have hlen : ((p :: q :: rest).foldl (fun h p => heappush h (.leaf p.1 p.2)) []).length =
        rest.length + 2 := by
      rw [foldl_heappush_length]
      simp
    obtain ⟨t, ht, hchars⟩ := buildLoopGo_spec
      ((p :: q :: rest).foldl (fun h p => heappush h (.leaf p.1 p.2)) []).length
      ((p :: q :: rest).foldl (fun h p => heappush h (.leaf p.1 p.2)) [])
      (by rw [hlen]; omega) (by omega)
    rw [ht]
    show (↑t.chars : Multiset Nat) = _
    rw [hchars, foldl_heappush_chars]
    simp [heapChars]

/-! ### Code tables from `_generate_codes` -/

theorem genCodes_keys (t : HTree) : ∀ p, (genCodes t p).map Prod.fst = t.chars := by
  induction t with
  | leaf c f => intro p; simp [genCodes, HTree.chars]
  | node f l r ihl ihr => intro p; simp [genCodes, HTree.chars, ihl, ihr]

theorem genCodes_values_ne_nil (t : HTree) :
    ∀ p pr, pr ∈ genCodes t p → pr.2 ≠ [] := by
  induction t with
  | leaf c f =>
    intro p pr hpr
    simp only [genCodes, List.mem_singleton] at hpr
    subst hpr
    rcases p with _ | ⟨b, bs⟩ <;> simp
  | node f l r ihl ihr =>
    intro p pr hpr
    rcases List.mem_append.1 hpr with h1 | h1
    · exact ihl _ _ h1
    · exact ihr _ _ h1

theorem genCodes_values_extend (t : HTree) :
    ∀ p, p ≠ [] → ∀ pr, pr ∈ genCodes t p → p <+: pr.2 := by
  induction t with
  | leaf c f =>
    intro p hp pr hpr
    simp only [genCodes, List.mem_singleton] at hpr
    subst hpr
    rcases p with _ | ⟨b, bs⟩
    · exact absurd rfl hp
    · simp
  | node f l r ihl ihr =>
    intro p hp pr hpr
    rcases List.mem_append.1 hpr with h1 | h1
    · exact (List.prefix_append p [false]).trans (ihl _ (by simp) pr h1)
    · exact (List.prefix_append p [true]).trans (ihr _ (by simp) pr h1)

/-- No bit string in the list is a prefix of another (pairwise, both
directions); this is the "prefix-free code table" property. -/
def BitAntichain (vals : List (List Bool)) : Prop :=
  vals.Pairwise (fun u v => ¬ u <+: v ∧ ¬ v <+: u)

theorem cross_not_extend {q u v : List Bool} {bu bv : Bool} (hbu : (q ++ [bu]) <+: u)
    (hbv : (q ++ [bv]) <+: v) (hb : bu ≠ bv) : ¬ u <+: v := by
  intro huv
  have hqu : q.length < u.length := by
    have := hbu.length_le
    simp at this
    omega
  have hqv : q.length < v.length := by
    have := hbv.length_le
    simp at this
    omega
  have h1 : u[q.length] = bu := by
    rw [← List.IsPrefix.getElem hbu (by simp)]
    simp
  have h2 : v[q.length] = bv := by
    rw [← List.IsPrefix.getElem hbv (by simp)]
    simp
  have h3 : u[q.length] = v[q.length] := List.IsPrefix.getElem huv hqu
  rw [h1, h2] at h3
  exact hb h3

theorem genCodes_antichain (t : HTree) :
    ∀ p, BitAntichain ((genCodes t p).map Prod.snd) := by
  induction t with
  | leaf c f => intro p; simp [genCodes, BitAntichain]
  | node f l r ihl ihr =>
    intro p
    unfold BitAntichain
    simp only [genCodes, List.map_append]
    rw [List.pairwise_append]
    refine ⟨ihl _, ihr _, ?_⟩
    intro u hu v hv
    obtain ⟨pu, hpu, rfl⟩ := List.mem_map.1 hu
    obtain ⟨pv, hpv, rfl⟩ := List.mem_map.1 hv
    have h1 := genCodes_values_extend l _ (by simp) pu hpu
    have h2 := genCodes_values_extend r _ (by simp) pv hpv
    exact ⟨cross_not_extend h1 h2 (by simp), cross_not_extend h2 h1 (by simp)⟩

theorem BitAntichain.values_nodup {vals : List (List Bool)} (h : BitAntichain vals) :
    vals.Nodup :=
  h.imp (fun hr => by
    intro hEq
    exact hr.1 (hEq ▸ List.prefix_refl _))

theorem BitAntichain.eq_of_mem_of_mem {vals : List (List Bool)} (h : BitAntichain vals)
    {u v : List Bool} (hu : u ∈ vals) (hv : v ∈ vals) (hpre : u <+: v) : u = v := by
  by_contra hne
  have := List.Pairwise.forall (R := fun u v => ¬ u <+: v ∧ ¬ v <+: u)
    (fun a b hab => ⟨hab.2, hab.1⟩) h hu hv hne
  exact this.1 hpre

/-! ### Reverse code table and greedy decoding -/

theorem foldl_pyInsert_eq_append {α β : Type} [DecidableEq α] (l : List (α × β)) :
    ∀ acc : List (α × β), (((acc ++ l).map Prod.fst).Nodup) →
      l.foldl (fun d p => pyInsert d p.1 p.2) acc = acc ++ l := by
  induction l with
  | nil => intro acc _; simp
  | cons p t ih =>
    obtain ⟨k, v⟩ := p
    intro acc hnd
    have hk : k ∉ acc.map Prod.fst := by
      simp only [List.map_append, List.nodup_append, List.map_cons] at hnd
      intro hmem
      exact hnd.2.2 hmem (List.mem_cons_self _ _)
    simp only [List.foldl_cons]
    rw [pyInsert_of_not_mem v hk]
    have hnd' : (((acc ++ [(k, v)]) ++ t).map Prod.fst).Nodup := by
      rw [List.append_assoc, List.singleton_append]
      exact hnd
    rw [ih (acc ++ [(k, v)]) hnd', List.append_assoc, List.singleton_append]

theorem pyDictOfPairs_eq_self {α β : Type} [DecidableEq α] {l : List (α × β)}
    (h : (l.map Prod.fst).Nodup) : pyDictOfPairs l = l := by
  unfold pyDictOfPairs
  rw [foldl_pyInsert_eq_append l [] (by simpa using h)]
  simp

theorem swap_map_keys (codes : List (Nat × List Bool)) :
    ((codes.map (fun p => (p.2, p.1))).map Prod.fst) = codes.map Prod.snd := by
  simp [List.map_map]

theorem rev_lookup_of_mem {codes : List (Nat × List Bool)}
    (hnd : (codes.map Prod.snd).Nodup) {c : Nat} {v : List Bool} (h : (c, v) ∈ codes) :
    dictGet (codes.map (fun p => (p.2, p.1))) v = some c := by
  apply dictGet_eq_some_of_mem
  · rw [swap_map_keys]; exact hnd
  · exact List.mem_map.2 ⟨(c, v), h, rfl⟩

theorem rev_lookup_none {codes : List (Nat × List Bool)} {u : List Bool}
    (hu : u ∉ codes.map Prod.snd) :
    dictGet (codes.map (fun p => (p.2, p.1))) u = none := by
  rw [dictGet_eq_none_iff, swap_map_keys]
  exact hu

theorem decodeLoop_consume (rev : List (List Bool × Nat)) (v : List Bool) (c : Nat)
    (hv : dictGet rev v = some c)
    (hpre : ∀ u, u ≠ [] → u <+: v → u ≠ v → dictGet rev u = none) :
    ∀ v₂ v₁ restBits acc, v = v₁ ++ v₂ → v₂ ≠ [] →
      decodeLoop rev (v₂ ++ restBits) v₁ acc = decodeLoop rev restBits [] (acc ++ [c]) := by
  intro v₂
  induction v₂ with
  | nil => intro v₁ restBits acc _ hne; exact absurd rfl hne
  | cons b v₂' ih =>
    intro v₁ restBits acc hsplit _
    show decodeLoop rev (b :: (v₂' ++ restBits)) v₁ acc = _
    simp only [decodeLoop]
    rcases v₂' with _ | ⟨b2, v₂''⟩
    · have hcur : v₁ ++ [b] = v := by rw [hsplit]
      rw [hcur, hv]
      simp
    · have hcur : (v₁ ++ [b]) ++ (b2 :: v₂'') = v := by
        rw [hsplit, List.append_assoc, List.singleton_append]
      have hnone : dictGet rev (v₁ ++ [b]) = none := by
        apply hpre
        · simp
        · exact ⟨b2 :: v₂'', hcur⟩
        · intro hEq
          have := congrArg List.length hcur
          rw [hEq] at this
          simp at this
      rw [hnone]
      exact ih (v₁ ++ [b]) restBits acc hcur.symm (by simp)

theorem decodeLoop_decode_all (codes : List (Nat × List Bool))
    (hanti : BitAntichain (codes.map Prod.snd))
    (hne : ∀ p ∈ codes, p.2 ≠ []) :
    ∀ (syms : List Nat) (acc : List Nat), (∀ s ∈ syms, (dictGet codes s).isSome) →
      decodeLoop (codes.map (fun p => (p.2, p.1)))
        ((syms.map (fun s => (dictGet codes s).getD [])).flatten) [] acc = acc ++ syms := by
  intro syms
  induction syms with
  | nil => intro acc _; simp [decodeLoop]
  | cons s rest ih =>
    intro acc hs
    have hsome : (dictGet codes s).isSome := hs s (List.mem_cons_self _ _)
    obtain ⟨v, hv⟩ := Option.isSome_iff_exists.1 hsome
    have hmem : (s, v) ∈ codes := mem_of_dictGet_eq_some hv
    have hvne : v ≠ [] := hne (s, v) hmem
    have hvmem : v ∈ codes.map Prod.snd := List.mem_map.2 ⟨(s, v), hmem, rfl⟩
    simp only [List.map_cons, List.flatten_cons, hv, Option.getD_some]
    rw [decodeLoop_consume (codes.map (fun p => (p.2, p.1))) v s
      (rev_lookup_of_mem hanti.values_nodup hmem)
      (fun u hune hupre huneq => rev_lookup_none (fun humem =>
        huneq (hanti.eq_of_mem_of_mem humem hvmem hupre)))
      v [] _ acc rfl hvne]
    rw [ih (acc ++ [s]) (fun t ht => hs t (List.mem_cons_of_mem _ ht))]
    simp

/-! ### Bit/byte packing round-trip -/

theorem natToBits8_bitsToNat :
    ∀ b0 b1 b2 b3 b4 b5 b6 b7 : Bool,
      natToBits8 (bitsToNat [b0, b1, b2, b3, b4, b5, b6, b7]) =
        [b0, b1, b2, b3, b4, b5, b6, b7] := by decide

theorem length_eight_exists {l : List Bool} (h : l.length = 8) :
    ∃ b0 b1 b2 b3 b4 b5 b6 b7, l = [b0, b1, b2, b3, b4, b5, b6, b7] := by
  rcases l with _ | ⟨b0, l⟩; · simp at h
  rcases l with _ | ⟨b1, l⟩; · simp at h
  rcases l with _ | ⟨b2, l⟩; · simp at h
  rcases l with _ | ⟨b3, l⟩; · simp at h
  rcases l with _ | ⟨b4, l⟩; · simp at h
  rcases l with _ | ⟨b5, l⟩; · simp at h
  rcases l with _ | ⟨b6, l⟩; · simp at h
  rcases l with _ | ⟨b7, l⟩; · simp at h
  rcases l with _ | ⟨b8, l⟩
  · exact ⟨b0, b1, b2, b3, b4, b5, b6, b7, rfl⟩
  · simp at h

theorem bytesToBits_cons (x : Nat) (rest : List Nat) :
    bytesToBits (x :: rest) = natToBits8 x ++ bytesToBits rest := by
  simp [bytesToBits]

theorem chunksToBytesGo_roundtrip :
    ∀ (n fuel : Nat) (bits : List Bool), bits.length = 8 * n → n ≤ fuel →
      bytesToBits (chunksToBytesGo fuel bits) = bits := by
  intro n
  induction n with
  | zero =>
    intro fuel bits h _
    have hnil : bits = [] := List.eq_nil_of_length_eq_zero (by omega)
    subst hnil
    cases fuel <;> simp [chunksToBytesGo, bytesToBits]
  | succ m ih =>
    intro fuel bits h hf
    obtain ⟨f, rfl⟩ : ∃ f, fuel = f + 1 := ⟨fuel - 1, by omega⟩
    have hlen8 : 8 ≤ bits.length := by omega
    have hne : ¬ bits.isEmpty := by
      rcases bits with _ | _
      · simp at h
      · simp
    show bytesToBits (if bits.isEmpty then []
      else bitsToNat (bits.take 8) :: chunksToBytesGo f (bits.drop 8)) = bits
    rw [if_neg hne, bytesToBits_cons]
    have htake : (bits.take 8).length = 8 := by
      rw [List.length_take]
      omega
    obtain ⟨b0, b1, b2, b3, b4, b5, b6, b7, hb⟩ := length_eight_exists htake
    rw [hb, natToBits8_bitsToNat, ← hb]
    rw [ih f (bits.drop 8) (by rw [List.length_drop]; omega) (by omega)]
    exact List.take_append_drop 8 bits

theorem padBits_length (bits : List Bool) :
    (padBits bits).length = 8 * ((bits.length + 7) / 8) := by
  simp only [padBits, List.length_append, List.length_replicate]
  omega

theorem bytesToBits_bitsToBytes (bits : List Bool) :
    bytesToBits (bitsToBytes bits) = padBits bits := by
  unfold bitsToBytes
  exact chunksToBytesGo_roundtrip ((bits.length + 7) / 8) _ _ (padBits_length bits)
    (by rw [padBits_length]; omega)

theorem take_bytesToBits_bitsToBytes (bits : List Bool) :
    (bytesToBits (bitsToBytes bits)).take bits.length = bits := by
  rw [bytesToBits_bitsToBytes]
  unfold padBits
  exact List.take_left bits _

theorem bitsToBytes_ne_nil {bits : List Bool} (h : bits ≠ []) : bitsToBytes bits ≠ [] := by
  unfold bitsToBytes
  have hlen : 1 ≤ (padBits bits).length := by
    have : 1 ≤ bits.length := by
      rcases bits with _ | _
      · exact absurd rfl h
      · simp
    simp only [padBits, List.length_append]
    omega
  rcases hpb : padBits bits with _ | ⟨x, xs⟩
  · rw [hpb] at hlen; simp at hlen
  · show (if (x :: xs).isEmpty then []
      else bitsToNat ((x :: xs).take 8) :: chunksToBytesGo xs.length ((x :: xs).drop 8)) ≠ []
    simp

theorem lookupAll_eq_some {codes : List (Nat × List Bool)} {data : List Nat}
    (h : ∀ b ∈ data, (dictGet codes b).isSome) :
    lookupAll codes data = some (data.map (fun b => (dictGet codes b).getD [])) := by
  induction data with
  | nil => rfl
  | cons b t ih =>
    obtain ⟨v, hv⟩ := Option.isSome_iff_exists.1 (h b (List.mem_cons_self _ _))
    simp only [lookupAll, hv, ih (fun c hc => h c (List.mem_cons_of_mem _ hc)), List.map_cons]
    simp [hv]

/-! ### Huffman main theorems -/

theorem huffman_codes_facts {data : List Nat} (h : data ≠ []) :
    BitAntichain ((genCodes (buildHuffmanTree (buildFreq data)) []).map Prod.snd) ∧
      (∀ p ∈ genCodes (buildHuffmanTree (buildFreq data)) [], p.2 ≠ []) ∧
      ((genCodes (buildHuffmanTree (buildFreq data)) []).map Prod.fst).Nodup ∧
      (∀ b ∈ data, (dictGet (genCodes (buildHuffmanTree (buildFreq data)) []) b).isSome) := by
  have hfreqne : buildFreq data ≠ [] := by
    rcases data with _ | ⟨d, rest⟩
    · exact absurd rfl h
    · have := mem_buildFreq_keys (List.mem_cons_self d rest)
      intro h0
      rw [h0] at this
      simp at this
  have hperm : (buildHuffmanTree (buildFreq data)).chars.Perm ((buildFreq data).map Prod.fst) :=
    Multiset.coe_eq_coe.1 (buildHuffmanTree_chars hfreqne)
  have hkeys : (genCodes (buildHuffmanTree (buildFreq data)) []).map Prod.fst =
      (buildHuffmanTree (buildFreq data)).chars := genCodes_keys _ []
  refine ⟨genCodes_antichain _ [], fun p hp => genCodes_values_ne_nil _ [] p hp, ?_, ?_⟩
  · rw [hkeys]
    exact hperm.symm.nodup (buildFreq_keys_nodup data)
  · intro b hb
    rw [dictGet_isSome_iff, hkeys, hperm.mem_iff]
    exact mem_buildFreq_keys hb

/-- C2: Huffman round-trips on every byte sequence; the empty input maps to
empty compressed output and the zeroed metadata record. -/
theorem huffman_roundtrip :
    (∀ data : List Nat, ∃ c md, HuffmanCompressor.compress data = some (c, md) ∧
        HuffmanCompressor.decompress c md = .ok data) ∧
      HuffmanCompressor.compress [] =
        some ([], { huffman_codes := some [], original_length := some 0, padding := some 0 }) := by
  constructor
  · intro data
    by_cases hd : data = []
    · subst hd
      exact ⟨[], ⟨some [], some 0, some 0⟩, rfl, rfl⟩
    · obtain ⟨hanti, hvne, hknd, hsome⟩ := huffman_codes_facts hd
      have hlook := lookupAll_eq_some hsome
      have hdne : ¬ data.isEmpty := by
        rcases data with _ | _
        · exact absurd rfl hd
        · simp
      refine ⟨bitsToBytes ((data.map (fun b =>
          (dictGet (genCodes (buildHuffmanTree (buildFreq data)) []) b).getD [])).flatten),
        ⟨some (genCodes (buildHuffmanTree (buildFreq data)) []),
         some ((data.map (fun b =>
          (dictGet (genCodes (buildHuffmanTree (buildFreq data)) []) b).getD [])).flatten).length,
         some ((8 - ((data.map (fun b =>
          (dictGet (genCodes (buildHuffmanTree (buildFreq data)) []) b).getD [])).flatten).length
            % 8) % 8)⟩, ?_, ?_⟩
      · show HuffmanCompressor.compress data = _
        unfold HuffmanCompressor.compress
        rw [if_neg hdne]
        simp only [hlook]
      · -- decompress side
        have hencne : ((data.map (fun b =>
            (dictGet (genCodes (buildHuffmanTree (buildFreq data)) []) b).getD [])).flatten) ≠
            [] := by
          rcases data with _ | ⟨d, rest⟩
          · exact absurd rfl hd
          · obtain ⟨v, hv⟩ := Option.isSome_iff_exists.1 (hsome d (List.mem_cons_self d rest))
            have hvne' : v ≠ [] := hvne (d, v) (mem_of_dictGet_eq_some hv)
            simp only [List.map_cons, List.flatten_cons, hv, Option.getD_some]
            intro h0
            rcases List.append_eq_nil.1 h0 with ⟨h1, _⟩
            exact hvne' h1
        have hcne : bitsToBytes ((data.map (fun b =>
            (dictGet (genCodes (buildHuffmanTree (buildFreq data)) []) b).getD [])).flatten) ≠
            [] := bitsToBytes_ne_nil hencne
        have hcneb : ¬ (bitsToBytes ((data.map (fun b =>
            (dictGet (genCodes (buildHuffmanTree (buildFreq data)) []) b).getD [])).flatten)).isEmpty := by
          rcases hx : bitsToBytes ((data.map (fun b =>
            (dictGet (genCodes (buildHuffmanTree (buildFreq data)) []) b).getD [])).flatten) with _ | _
          · exact absurd hx hcne
          · simp
        unfold HuffmanCompressor.decompress
        rw [if_neg hcneb]
        simp only
        have hrev : pyDictOfPairs ((genCodes (buildHuffmanTree (buildFreq data)) []).map
            (fun p => (p.2, p.1))) =
            (genCodes (buildHuffmanTree (buildFreq data)) []).map (fun p => (p.2, p.1)) := by
          apply pyDictOfPairs_eq_self
          rw [swap_map_keys]
          exact hanti.values_nodup
        rw [hrev, take_bytesToBits_bitsToBytes]
        rw [decodeLoop_decode_all _ hanti hvne data [] hsome]
        simp
  · rfl

/-- C7: on non-empty input the generated code table is prefix-free and
`original_length` is the sum of the per-byte code lengths. -/
theorem huffman_code_table_facts :
    ∀ data : List Nat, data ≠ [] →
      ∃ c md codes, HuffmanCompressor.compress data = some (c, md) ∧
        md.huffman_codes = some codes ∧
        BitAntichain (codes.map Prod.snd) ∧
        md.original_length =
          some ((data.map (fun b => ((dictGet codes b).getD []).length)).sum) := by
  intro data hd
  obtain ⟨hanti, hvne, hknd, hsome⟩ := huffman_codes_facts hd
  have hlook := lookupAll_eq_some hsome
  have hdne : ¬ data.isEmpty := by
    rcases data with _ | _
    · exact absurd rfl hd
    · simp
  refine ⟨bitsToBytes ((data.map (fun b =>
      (dictGet (genCodes (buildHuffmanTree (buildFreq data)) []) b).getD [])).flatten),
    ⟨some (genCodes (buildHuffmanTree (buildFreq data)) []),
     some ((data.map (fun b =>
      (dictGet (genCodes (buildHuffmanTree (buildFreq data)) []) b).getD [])).flatten).length,
     some ((8 - ((data.map (fun b =>
      (dictGet (genCodes (buildHuffmanTree (buildFreq data)) []) b).getD [])).flatten).length
        % 8) % 8)⟩,
    genCodes (buildHuffmanTree (buildFreq data)) [], ?_, rfl, hanti, ?_⟩
  · show HuffmanCompressor.compress data = _
    unfold HuffmanCompressor.compress
    rw [if_neg hdne]
    simp only [hlook]
  · show some ((data.map (fun b =>
        (dictGet (genCodes (buildHuffmanTree (buildFreq data)) []) b).getD [])).flatten).length = _
    rw [List.length_flatten, List.map_map]
    rfl

/-- Witness for `huffman_code_table_facts` at the concrete input `[0, 1, 1]`. -/
theorem huffman_code_table_facts_witness :
    (([0, 1, 1] : List Nat) ≠ []) ∧
      (∃ c md codes, HuffmanCompressor.compress [0, 1, 1] = some (c, md) ∧
        md.huffman_codes = some codes ∧
        BitAntichain (codes.map Prod.snd) ∧
        md.original_length =
          some ((([0, 1, 1] : List Nat).map
            (fun b => ((dictGet codes b).getD []).length)).sum)) :=
  ⟨by decide, huffman_code_table_facts [0, 1, 1] (by decide)⟩

/-! ### LZW codec (`src/src/algorithms/lzw.py`)

`max_dict_size` is the instance constant 4096 (12-bit codes). The
dictionary insert `dictionary[test_sequence] = next_code` always happens
with an absent key (the branch condition), so it is a plain append. -/

def lzwSeed : List (List Nat × Nat) := (List.range 256).map (fun i => ([i], i))

def lzwRevSeed : List (Nat × List Nat) := (List.range 256).map (fun i => (i, [i]))

structure LZWEnc where
  dict : List (List Nat × Nat)
  next_code : Nat
  codes : List Nat
  current : List Nat

/-- One iteration of the `for i in range(1, len(data))` loop of
`LZWCompressor.compress`, processing `next_byte = data[i]`.  The dict
lookup `dictionary[current_sequence]` cannot fail (invariant proved
below), so its `KeyError` is modelled with `getD 0`. -/
def lzwStep (st : LZWEnc) (b : Nat) : LZWEnc :=
  let test := st.current ++ [b]
  if (dictGet st.dict test).isSome then
    { st with current := test }
  else
    let emitted := (dictGet st.dict st.current).getD 0
    if st.next_code < 4096 then
      { dict := st.dict ++ [(test, st.next_code)], next_code := st.next_code + 1,
        codes := st.codes ++ [emitted], current := [b] }
    else
      { st with codes := st.codes ++ [emitted], current := [b] }

/-- The inner `while bits_in_buffer >= 8` byte-extraction loop of
`_codes_to_bytes`; at most two rounds per code (buffer ≤ 19 bits), so any
fuel ≥ 3 is exact. -/
def drainBits : Nat → List Nat → Nat → Nat → List Nat × Nat × Nat
  | 0, res, buf, bib => (res, buf, bib)
  | fuel + 1, res, buf, bib =>
    if 8 ≤ bib then
      drainBits fuel (res ++ [(buf >>> (bib - 8)) % 256]) (buf % 2 ^ (bib - 8)) (bib - 8)
    else (res, buf, bib)

/-- `LZWCompressor._codes_to_bytes`: pack codes as 12-bit words, MSB first,
zero-padding the final byte. -/
def codesToBytes (codes : List Nat) : List Nat :=
  if codes.isEmpty then []
  else
    let r := codes.foldl (fun (acc : List Nat × Nat × Nat) code =>
      drainBits 3 acc.1 ((acc.2.1 <<< 12) ||| code) (acc.2.2 + 12)) ([], 0, 0)
    r.1 ++ (if 0 < r.2.2 then [(r.2.1 <<< (8 - r.2.2)) % 256] else [])

structure LZWMeta where
  compressed_codes : Option (List Nat)
  code_size : Option Nat
  max_dict_size : Option Nat

namespace LZWCompressor

/-- `LZWCompressor.compress`. -/
def compress (data : List Nat) : List Nat × LZWMeta :=
  match data with
  | [] => ([], ⟨some [], none, none⟩)
  | d0 :: rest =>
    let st := rest.foldl lzwStep ⟨lzwSeed, 256, [], [d0]⟩
    let codes := st.codes ++ [(dictGet st.dict st.current).getD 0]
    (codesToBytes codes, ⟨some codes, some 12, some 4096⟩)

end LZWCompressor

structure LZWDec where
  result : List Nat
  prev : List Nat
  rev : List (Nat × List Nat)
  next_code : Nat

/-- The shared tail of one decoder loop iteration once `current_sequence`
is resolved: extend the output, add `prev_sequence + current_sequence[0]`
under the next free code when below the cap, advance `prev_sequence`. -/
def lzwDecInsert (st : LZWDec) (cur : List Nat) : Except String LZWDec :=
  if st.next_code < 4096 then
    match cur with
    | [] => .error "IndexError: current_sequence"
    | c0 :: _ =>
      .ok ⟨st.result ++ cur, cur, pyInsert st.rev st.next_code (st.prev ++ [c0]),
        st.next_code + 1⟩
  else .ok ⟨st.result ++ cur, cur, st.rev, st.next_code⟩

/-- One iteration of the decoder's `for i in range(1, len(compressed_codes))`
loop, including the self-referential `prev + prev[0]` case. -/
def lzwDecStep (st : LZWDec) (code : Nat) : Except String LZWDec :=
  match dictGet st.rev code with
  | some cur => lzwDecInsert st cur
  | none =>
    match st.prev with
    | [] => .error "IndexError: prev_sequence"
    | p0 :: _ => lzwDecInsert st (st.prev ++ [p0])

def lzwDecRun : LZWDec → List Nat → Except String LZWDec
  | st, [] => .ok st
  | st, c :: rest =>
    match lzwDecStep st c with
    | .error e => .error e
    | .ok st' => lzwDecRun st' rest

/-- The whole decoder loop of `LZWCompressor.decompress`: the first code is
looked up in the seed reverse dictionary (`KeyError`/`IndexError` on bad
input), the rest through `lzwDecStep`. -/
def decRun (codes : List Nat) : Except String LZWDec :=
  match codes with
  | [] => .error "IndexError: compressed_codes"
  | c0 :: rest =>
    match dictGet lzwRevSeed c0 with
    | none => .error "KeyError: reverse_dict"
    | some p0 => lzwDecRun ⟨p0, p0, lzwRevSeed, 256⟩ rest

namespace LZWCompressor

/-- `LZWCompressor.decompress`. -/
def decompress (compressed : List Nat) (md : LZWMeta) : Except String (List Nat) :=
  if compressed.isEmpty then .ok []
  else
    match md.compressed_codes with
    | none => .error "KeyError: compressed_codes"
    | some codes =>
      match decRun codes with
      | .error e => .error e
      | .ok st => .ok st.result

end LZWCompressor

/-! ### LZW seed dictionary facts -/

set_option maxRecDepth 100000 in
theorem lzwSeed_snd : lzwSeed.map Prod.snd = List.range 256 := by decide

set_option maxRecDepth 100000 in
theorem lzwSeed_length : lzwSeed.length = 256 := by simp [lzwSeed]

set_option maxRecDepth 100000 in
theorem lzwSeed_keys_nodup : (lzwSeed.map Prod.fst).Nodup := by decide

theorem mem_lzwSeed {b : Nat} (h : b < 256) : ([b], b) ∈ lzwSeed :=
  List.mem_map.2 ⟨b, List.mem_range.2 h, rfl⟩

theorem dictGet_lzwSeed {b : Nat} (h : b < 256) : dictGet lzwSeed [b] = some b :=
  dictGet_eq_some_of_mem lzwSeed_keys_nodup (mem_lzwSeed h)

set_option maxRecDepth 100000 in
theorem lzwSeed_keys_len1 : ∀ k ∈ lzwSeed.map Prod.fst, k.length = 1 := by decide

set_option maxRecDepth 100000 in
theorem lzwRevSeed_keys : lzwRevSeed.map Prod.fst = List.range 256 := by decide

set_option maxRecDepth 100000 in
theorem lzwRevSeed_length : lzwRevSeed.length = 256 := by simp [lzwRevSeed]

theorem dictGet_lzwRevSeed {b : Nat} (h : b < 256) : dictGet lzwRevSeed b = some [b] := by
  apply dictGet_eq_some_of_mem
  · rw [lzwRevSeed_keys]; exact List.nodup_range 256
  · exact List.mem_map.2 ⟨b, List.mem_range.2 h, rfl⟩

def mirrorPairs {α β : Type} (l : List (α × β)) : List (β × α) :=
  l.map (fun p => (p.2, p.1))

set_option maxRecDepth 100000 in
theorem mirror_lzwRevSeed : mirrorPairs lzwRevSeed = lzwSeed := by decide

theorem mirrorPairs_length {α β : Type} (l : List (α × β)) :
    (mirrorPairs l).length = l.length := by simp [mirrorPairs]

theorem mirrorPairs_snd {α β : Type} (l : List (α × β)) :
    (mirrorPairs l).map Prod.snd = l.map Prod.fst := by
  simp [mirrorPairs, List.map_map]

theorem mem_mirrorPairs {α β : Type} {l : List (α × β)} {a : α} {b : β} :
    (b, a) ∈ mirrorPairs l ↔ (a, b) ∈ l := by
  constructor
  · intro h
    obtain ⟨⟨x, y⟩, hxy, hEq⟩ := List.mem_map.1 h
    simp only [Prod.mk.injEq] at hEq
    obtain ⟨rfl, rfl⟩ := hEq
    exact hxy
  · intro h
    exact List.mem_map.2 ⟨(a, b), h, rfl⟩

theorem snd_unique {α β : Type} {l : List (α × β)} (h : (l.map Prod.snd).Nodup)
    {a a' : α} {c : β} (h1 : (a, c) ∈ l) (h2 : (a', c) ∈ l) : a = a' := by
  induction l with
  | nil => cases h1
  | cons p t ih =>
    obtain ⟨px, py⟩ := p
    simp only [List.map_cons, List.nodup_cons] at h
    rcases List.mem_cons.1 h1 with hEq1 | h1'
    · rcases List.mem_cons.1 h2 with hEq2 | h2'
      · simp only [Prod.mk.injEq] at hEq1 hEq2
        rw [hEq1.1, hEq2.1]
      · simp only [Prod.mk.injEq] at hEq1
        exact absurd (hEq1.2 ▸ List.mem_map.2 ⟨(a', c), h2', rfl⟩) h.1
    · rcases List.mem_cons.1 h2 with hEq2 | h2'
      · simp only [Prod.mk.injEq] at hEq2
        exact absurd (hEq2.2 ▸ List.mem_map.2 ⟨(a, c), h1', rfl⟩) h.1
      · exact ih h.2 h1' h2'

/-! ### LZW encoder invariant -/

structure EncWF (E : LZWEnc) : Prop where
  snd_range : E.dict.map Prod.snd = List.range E.dict.length
  keys_nodup : (E.dict.map Prod.fst).Nodup
  next_eq : E.next_code = E.dict.length
  next_le : E.next_code ≤ 4096
  seed_le : lzwSeed <+: E.dict
  keys_ne_nil : ∀ k ∈ E.dict.map Prod.fst, k ≠ []
  cur_ne_nil : E.current ≠ []
  cur_mem : (dictGet E.dict E.current).isSome

theorem encWF_init {d0 : Nat} (h : d0 < 256) :
    EncWF ⟨lzwSeed, 256, [], [d0]⟩ where
  snd_range := by rw [lzwSeed_length]; exact lzwSeed_snd
  keys_nodup := lzwSeed_keys_nodup
  next_eq := lzwSeed_length.symm
  next_le := by show (256 : Nat) ≤ 4096; omega
  seed_le := List.prefix_refl _
  keys_ne_nil := by
    intro k hk
    have := lzwSeed_keys_len1 k hk
    intro h0
    rw [h0] at this
    simp at this
  cur_ne_nil := by simp
  cur_mem := by rw [dictGet_lzwSeed h]; rfl

theorem dictGet_seed_sub {E : LZWEnc} (h : EncWF E) {b : Nat} (hb : b < 256) :
    dictGet E.dict [b] = some b := by
  obtain ⟨t, ht⟩ := h.seed_le
  rw [← ht]
  exact dictGet_eq_some_of_mem (ht ▸ h.keys_nodup)
    (List.mem_append.2 (Or.inl (mem_lzwSeed hb)))

theorem lzwStep_encWF {E : LZWEnc} {b : Nat} (h : EncWF E) (hb : b < 256) :
    EncWF (lzwStep E b) := by
  unfold lzwStep
  by_cases htest : (dictGet E.dict (E.current ++ [b])).isSome
  · rw [if_pos htest]
    exact { h with cur_ne_nil := by simp, cur_mem := htest }
  · rw [if_neg htest]
    have hnotmem : E.current ++ [b] ∉ E.dict.map Prod.fst := by
      rw [← dictGet_eq_none_iff]
      exact Option.not_isSome_iff_eq_none.1 htest
    by_cases hcap : E.next_code < 4096
    · rw [if_pos hcap]
      refine ⟨?_, ?_, ?_, ?_, ?_, ?_, by simp, ?_⟩
      · show (E.dict ++ [(E.current ++ [b], E.next_code)]).map Prod.snd =
          List.range (E.dict ++ [(E.current ++ [b], E.next_code)]).length
        simp only [List.map_append, List.length_append, List.map_cons, List.map_nil,
          List.length_cons, List.length_nil]
        rw [h.snd_range, h.next_eq, Nat.zero_add, List.range_succ]
      · simp only [List.map_append]
        rw [List.nodup_append]
        exact ⟨h.keys_nodup, by simp, by
          intro a ha
          simp only [List.map_cons, List.map_nil, List.mem_singleton]
          intro hEq
          rw [hEq] at ha
          exact hnotmem ha⟩
      · simp [h.next_eq]
      · show E.next_code + 1 ≤ 4096
        omega
      · exact h.seed_le.trans (List.prefix_append _ _)
      · intro k hk
        simp only [List.map_append, List.mem_append] at hk
        rcases hk with hk | hk
        · exact h.keys_ne_nil k hk
        · simp only [List.map_cons, List.map_nil, List.mem_singleton] at hk
          subst hk
          simp
      · show (dictGet (E.dict ++ [(E.current ++ [b], E.next_code)]) [b]).isSome
        rw [dictGet_append_left _ (dictGet_seed_sub h hb)]
        rfl
    · rw [if_neg hcap]
      refine { h with cur_ne_nil := by simp, cur_mem := ?_ }
      show (dictGet E.dict [b]).isSome
      rw [dictGet_seed_sub h hb]
      rfl

theorem lzwStep_dict_mono (E : LZWEnc) (b : Nat) : E.dict <+: (lzwStep E b).dict := by
  unfold lzwStep
  by_cases htest : (dictGet E.dict (E.current ++ [b])).isSome
  · rw [if_pos htest]
  · rw [if_neg htest]
    by_cases hcap : E.next_code < 4096
    · rw [if_pos hcap]
      exact List.prefix_append _ _
    · rw [if_neg hcap]

theorem lzwStep_codes {E : LZWEnc} {b : Nat} (h : EncWF E) :
    (lzwStep E b).codes = E.codes ∨
      ∃ c, (lzwStep E b).codes = E.codes ++ [c] ∧ c ∈ E.dict.map Prod.snd := by
  unfold lzwStep
  by_cases htest : (dictGet E.dict (E.current ++ [b])).isSome
  · rw [if_pos htest]
    exact Or.inl rfl
  · rw [if_neg htest]
    obtain ⟨c, hc⟩ := Option.isSome_iff_exists.1 h.cur_mem
    have hcmem : c ∈ E.dict.map Prod.snd :=
      List.mem_map.2 ⟨(E.current, c), mem_of_dictGet_eq_some hc, rfl⟩
    by_cases hcap : E.next_code < 4096
    · rw [if_pos hcap]
      exact Or.inr ⟨c, by simp [hc], hcmem⟩
    · rw [if_neg hcap]
      exact Or.inr ⟨c, by simp [hc], hcmem⟩

theorem encWF_foldl {l : List Nat} :
    ∀ E : LZWEnc, EncWF E → (∀ x ∈ l, x < 256) → EncWF (l.foldl lzwStep E) := by
  induction l with
  | nil => intro E h _; exact h
  | cons b t ih =>
    intro E h hl
    exact ih _ (lzwStep_encWF h (hl b (List.mem_cons_self _ _)))
      (fun x hx => hl x (List.mem_cons_of_mem _ hx))

/-! ### LZW decoder lockstep simulation -/

theorem decInsert_spec {dec : LZWDec} {E : LZWEnc}
    (hcur : E.current ≠ [])
    (hrevkeys : dec.rev.map Prod.fst = List.range dec.rev.length)
    (hnext : dec.next_code = dec.rev.length)
    (hrel : (dec.next_code < 4096 ∧
        E.dict = mirrorPairs dec.rev ++ [(dec.prev ++ [E.current.headI], dec.next_code)] ∧
        E.next_code = dec.next_code + 1) ∨
      (4096 ≤ dec.next_code ∧ E.dict = mirrorPairs dec.rev ∧ E.next_code = dec.next_code)) :
    ∃ rev', lzwDecInsert dec E.current =
        .ok ⟨dec.result ++ E.current, E.current, rev', E.next_code⟩ ∧
      mirrorPairs rev' = E.dict ∧ rev'.map Prod.fst = List.range rev'.length ∧
      E.next_code = rev'.length := by
  rcases hrel with ⟨hm, hdict, hn⟩ | ⟨hm, hdict, hn⟩
  · rcases hc : E.current with _ | ⟨c0, cs⟩
    · exact absurd hc hcur
    · have hhead : E.current.headI = c0 := by rw [hc]; rfl
      have hnotmem : dec.next_code ∉ dec.rev.map Prod.fst := by
        rw [hrevkeys, hnext]
        simp
      refine ⟨pyInsert dec.rev dec.next_code (dec.prev ++ [c0]), ?_, ?_, ?_, ?_⟩
      · simp only [lzwDecInsert, if_pos hm, hn]
      · rw [pyInsert_of_not_mem _ hnotmem, hdict, hhead]
        simp [mirrorPairs]
      · rw [pyInsert_of_not_mem _ hnotmem]
        simp only [List.map_append, List.length_append, List.map_cons, List.map_nil,
          List.length_cons, List.length_nil]
        rw [hrevkeys, hnext, Nat.zero_add, List.range_succ]
      · rw [pyInsert_of_not_mem _ hnotmem, hn, hnext]
        simp
  · refine ⟨dec.rev, ?_, hdict.symm, hrevkeys, by rw [hn, hnext]⟩
    show lzwDecInsert dec E.current = _
    unfold lzwDecInsert
    rw [if_neg (by omega), hn]

theorem decStep_emit {dec : LZWDec} {E : LZWEnc} {cw : Nat} (hwf : EncWF E)
    (hprev : dec.prev ≠ [])
    (hrevkeys : dec.rev.map Prod.fst = List.range dec.rev.length)
    (hnext : dec.next_code = dec.rev.length)
    (hrel : (dec.next_code < 4096 ∧
        E.dict = mirrorPairs dec.rev ++ [(dec.prev ++ [E.current.headI], dec.next_code)] ∧
        E.next_code = dec.next_code + 1) ∨
      (4096 ≤ dec.next_code ∧ E.dict = mirrorPairs dec.rev ∧ E.next_code = dec.next_code))
    (hcw : dictGet E.dict E.current = some cw) :
    ∃ rev', lzwDecStep dec cw =
        .ok ⟨dec.result ++ E.current, E.current, rev', E.next_code⟩ ∧
      mirrorPairs rev' = E.dict ∧ rev'.map Prod.fst = List.range rev'.length ∧
      E.next_code = rev'.length := by
  have hmem : (E.current, cw) ∈ E.dict := mem_of_dictGet_eq_some hcw
  have hsndnd : (E.dict.map Prod.snd).Nodup := by
    rw [hwf.snd_range]; exact List.nodup_range _
  have hcwlt : cw < E.dict.length := by
    have h1 : cw ∈ E.dict.map Prod.snd := List.mem_map.2 ⟨(E.current, cw), hmem, rfl⟩
    rw [hwf.snd_range] at h1
    exact List.mem_range.1 h1
  by_cases hcwm : cw < dec.rev.length
  · -- the emitted code already has an entry in the decoder dictionary
    have hbmem : cw ∈ dec.rev.map Prod.fst := by
      rw [hrevkeys]; exact List.mem_range.2 hcwm
    have hsome : (dictGet dec.rev cw).isSome := (dictGet_isSome_iff _ _).2 hbmem
    obtain ⟨s, hs⟩ := Option.isSome_iff_exists.1 hsome
    have hsE : (s, cw) ∈ E.dict := by
      rcases hrel with ⟨_, hdict, _⟩ | ⟨_, hdict, _⟩ <;>
        rw [hdict]
      · exact List.mem_append.2 (Or.inl (mem_mirrorPairs.2 (mem_of_dictGet_eq_some hs)))
      · exact mem_mirrorPairs.2 (mem_of_dictGet_eq_some hs)
    have hseq : s = E.current := snd_unique hsndnd hsE hmem
    obtain ⟨rev', h1, h2, h3, h4⟩ := decInsert_spec hwf.cur_ne_nil hrevkeys hnext hrel
    refine ⟨rev', ?_, h2, h3, h4⟩
    unfold lzwDecStep
    rw [hs, hseq]
    exact h1
  · -- self-referential case: the code is the entry the decoder has not built yet
    have hnone : dictGet dec.rev cw = none := by
      rw [dictGet_eq_none_iff, hrevkeys]
      simp only [List.mem_range]
      omega
    rcases hrel with ⟨hm, hdict, hn⟩ | ⟨hm, hdict, hn⟩
    · have hdlen : E.dict.length = dec.rev.length + 1 := by
        rw [hdict]
        simp [mirrorPairs]
      have hcweq : cw = dec.next_code := by rw [hnext]; omega
      have hpend : (dec.prev ++ [E.current.headI], cw) ∈ E.dict := by
        rw [hdict, hcweq]
        exact List.mem_append.2 (Or.inr (List.mem_singleton.2 rfl))
      have hcureq : E.current = dec.prev ++ [E.current.headI] := snd_unique hsndnd hmem hpend
      rcases hpr : dec.prev with _ | ⟨p0, ps⟩
      · exact absurd hpr hprev
      · have hx : E.current.headI = p0 := by
          conv_lhs => rw [hcureq, hpr]
          rfl
        have hcureq' : E.current = dec.prev ++ [p0] := by rw [← hx]; exact hcureq
        have hcureq2 : E.current = (p0 :: ps) ++ [p0] := by rw [hcureq', hpr]
        obtain ⟨rev', h1, h2, h3, h4⟩ := decInsert_spec hwf.cur_ne_nil hrevkeys hnext
          (Or.inl ⟨hm, hdict, hn⟩)
        refine ⟨rev', ?_, h2, h3, h4⟩
        unfold lzwDecStep
        rw [hnone]
        conv_lhs => rw [hpr]
        show lzwDecInsert dec ((p0 :: ps) ++ [p0]) = _
        rw [← hcureq2]
        exact h1
    · -- frozen dictionaries: impossible, every code is below the decoder size
      exfalso
      have : E.dict.length = dec.rev.length := by
        rw [hdict]; simp [mirrorPairs]
      omega

/-- The encoder/decoder lockstep invariant: after the encoder has consumed
the input prefix `u` (current state `E`), running the decoder over the
codes emitted so far reproduces exactly the part of `u` not still pending
in `current`, and the decoder dictionary is the encoder dictionary minus
the one entry the decoder only completes on the next code. -/
def Sim (u : List Nat) (E : LZWEnc) : Prop :=
  EncWF E ∧
  ((E.codes = [] ∧ E.dict = lzwSeed ∧ E.next_code = 256 ∧ u = E.current ∧
      ∃ b, b < 256 ∧ E.current = [b]) ∨
    ∃ dec, decRun E.codes = .ok dec ∧ u = dec.result ++ E.current ∧ dec.prev ≠ [] ∧
      dec.rev.map Prod.fst = List.range dec.rev.length ∧
      dec.next_code = dec.rev.length ∧
      ((dec.next_code < 4096 ∧
          E.dict = mirrorPairs dec.rev ++ [(dec.prev ++ [E.current.headI], dec.next_code)] ∧
          E.next_code = dec.next_code + 1) ∨
        (4096 ≤ dec.next_code ∧ E.dict = mirrorPairs dec.rev ∧ E.next_code = dec.next_code)))

theorem lzwDecRun_append (l : List Nat) :
    ∀ (st : LZWDec) (c : Nat),
      lzwDecRun st (l ++ [c]) =
        match lzwDecRun st l with
        | .error e => .error e
        | .ok st' => lzwDecStep st' c := by
  induction l with
  | nil =>
    intro st c
    show (match lzwDecStep st c with
      | Except.error e => (Except.error e : Except String LZWDec)
      | Except.ok st' => lzwDecRun st' []) = _
    cases h : lzwDecStep st c <;> simp [lzwDecRun, h]
  | cons d t ih =>
    intro st c
    show (match lzwDecStep st d with
      | Except.error e => (Except.error e : Except String LZWDec)
      | Except.ok st' => lzwDecRun st' (t ++ [c])) = _
    cases h : lzwDecStep st d
    · simp [lzwDecRun, h]
    · simp only [lzwDecRun, h, ih]

theorem headI_append_ne_nil {l : List Nat} (h : l ≠ []) (x : Nat) :
    (l ++ [x]).headI = l.headI := by
  rcases l with _ | ⟨a, t⟩
  · exact absurd rfl h
  · rfl

theorem sim_init {d0 : Nat} (h : d0 < 256) : Sim [d0] ⟨lzwSeed, 256, [], [d0]⟩ :=
  ⟨encWF_init h, Or.inl ⟨rfl, rfl, rfl, rfl, d0, h, rfl⟩⟩

theorem sim_step {u : List Nat} {E : LZWEnc} {b : Nat} (hsim : Sim u E) (hb : b < 256) :
    Sim (u ++ [b]) (lzwStep E b) := by
  obtain ⟨hwf, hph⟩ := hsim
  refine ⟨lzwStep_encWF hwf hb, ?_⟩
  unfold lzwStep
  by_cases htest : (dictGet E.dict (E.current ++ [b])).isSome
  · rw [if_pos htest]
    rcases hph with ⟨hcodes, hdict, hnext, hu, b0, hb0, hcur⟩ |
      ⟨dec, hrun, hu, hprev, hkeys, hnexteq, hrel⟩
    · -- phase 1 cannot extend: seed keys are all single bytes
      exfalso
      rw [hdict] at htest
      have hmem2 : E.current ++ [b] ∈ lzwSeed.map Prod.fst := (dictGet_isSome_iff _ _).1 htest
      have hl := lzwSeed_keys_len1 _ hmem2
      rw [hcur] at hl
      simp at hl
    · refine Or.inr ⟨dec, hrun, ?_, hprev, hkeys, hnexteq, ?_⟩
      · show u ++ [b] = dec.result ++ (E.current ++ [b])
        rw [hu, List.append_assoc]
      · rcases hrel with ⟨hm, hdicteq, hn⟩ | hfr
        · refine Or.inl ⟨hm, ?_, hn⟩
          show E.dict = mirrorPairs dec.rev ++
            [(dec.prev ++ [(E.current ++ [b]).headI], dec.next_code)]
          rw [headI_append_ne_nil hwf.cur_ne_nil]
          exact hdicteq
        · exact Or.inr hfr
  · rw [if_neg htest]
    obtain ⟨cw, hcw⟩ := Option.isSome_iff_exists.1 hwf.cur_mem
    have hgetD : (dictGet E.dict E.current).getD 0 = cw := by rw [hcw]; rfl
    rcases hph with ⟨hcodes, hdictseed, hnext256, hu, b0, hb0, hcur⟩ |
      ⟨dec, hrun, hu, hprev, hkeys, hnexteq, hrel⟩
    · -- phase 1: this is the first emission
      have hcwb0 : cw = b0 := by
        rw [hdictseed, hcur, dictGet_lzwSeed hb0] at hcw
        exact (Option.some.inj hcw).symm
      have hpos : E.next_code < 4096 := by rw [hnext256]; omega
      rw [if_pos hpos]
      refine Or.inr ⟨⟨[b0], [b0], lzwRevSeed, 256⟩, ?_, ?_, by simp, ?_, ?_, ?_⟩
      · show decRun (E.codes ++ [(dictGet E.dict E.current).getD 0]) = _
        rw [hgetD, hcodes, hcwb0]
        show decRun [b0] = _
        simp [decRun, dictGet_lzwRevSeed hb0, lzwDecRun]
      · show u ++ [b] = [b0] ++ [b]
        rw [hu, hcur]
      · rw [lzwRevSeed_keys, lzwRevSeed_length]
      · rw [lzwRevSeed_length]
      · refine Or.inl ⟨by show (256 : Nat) < 4096; omega, ?_, by rw [hnext256]⟩
        show E.dict ++ [(E.current ++ [b], E.next_code)] =
          mirrorPairs lzwRevSeed ++ [(([b0] : List Nat) ++ [([b] : List Nat).headI], 256)]
        rw [mirror_lzwRevSeed, hdictseed, hcur, hnext256]
        rfl
    · -- phase 2 emission
      obtain ⟨rev', hstep, hmirr, hkeys', hlen'⟩ := decStep_emit hwf hprev hkeys hnexteq hrel hcw
      have hcodes_ne : E.codes ≠ [] := by
        intro h0
        rw [h0] at hrun
        exact absurd hrun (by simp [decRun])
      obtain ⟨c0, cs, hcodes_eq⟩ := List.exists_cons_of_ne_nil hcodes_ne
      have hrunfull : decRun (E.codes ++ [cw]) = lzwDecStep dec cw := by
        rw [hcodes_eq] at hrun ⊢
        show (match dictGet lzwRevSeed c0 with
            | none => (Except.error "KeyError: reverse_dict" : Except String LZWDec)
            | some p0 => lzwDecRun ⟨p0, p0, lzwRevSeed, 256⟩ (cs ++ [cw])) = _
        have hrun' : (match dictGet lzwRevSeed c0 with
            | none => (Except.error "KeyError: reverse_dict" : Except String LZWDec)
            | some p0 => lzwDecRun ⟨p0, p0, lzwRevSeed, 256⟩ cs) = Except.ok dec := hrun
        rcases hseed : dictGet lzwRevSeed c0 with _ | p0
        · rw [hseed] at hrun'
          cases hrun'
        · have hrun2 : lzwDecRun ⟨p0, p0, lzwRevSeed, 256⟩ cs = Except.ok dec := by
            rw [hseed] at hrun'
            exact hrun'
          show lzwDecRun ⟨p0, p0, lzwRevSeed, 256⟩ (cs ++ [cw]) = _
          rw [lzwDecRun_append, hrun2]
      by_cases hcap : E.next_code < 4096
      · rw [if_pos hcap]
        refine Or.inr ⟨⟨dec.result ++ E.current, E.current, rev', E.next_code⟩, ?_, ?_,
          hwf.cur_ne_nil, hkeys', hlen', ?_⟩
        · show decRun (E.codes ++ [(dictGet E.dict E.current).getD 0]) = _
          rw [hgetD, hrunfull, hstep]
        · show u ++ [b] = (dec.result ++ E.current) ++ [b]
          rw [hu]
        · refine Or.inl ⟨hcap, ?_, rfl⟩
          show E.dict ++ [(E.current ++ [b], E.next_code)] =
            mirrorPairs rev' ++ [(E.current ++ [([b] : List Nat).headI], E.next_code)]
          rw [hmirr]
          rfl
      · rw [if_neg hcap]
        refine Or.inr ⟨⟨dec.result ++ E.current, E.current, rev', E.next_code⟩, ?_, ?_,
          hwf.cur_ne_nil, hkeys', hlen', ?_⟩
        · show decRun (E.codes ++ [(dictGet E.dict E.current).getD 0]) = _
          rw [hgetD, hrunfull, hstep]
        · show u ++ [b] = (dec.result ++ E.current) ++ [b]
          rw [hu]
        · refine Or.inr ⟨by show 4096 ≤ E.next_code; omega, hmirr.symm, rfl⟩

theorem sim_foldl (rest : List Nat) :
    ∀ (u : List Nat) (E : LZWEnc), Sim u E → (∀ x ∈ rest, x < 256) →
      Sim (u ++ rest) (rest.foldl lzwStep E) := by
  induction rest with
  | nil => intro u E h _; simpa using h
  | cons b t ih =>
    intro u E h hrest
    have h1 := sim_step h (hrest b (List.mem_cons_self _ _))
    have h2 := ih (u ++ [b]) (lzwStep E b) h1 (fun x hx => hrest x (List.mem_cons_of_mem _ hx))
    simpa [List.append_assoc] using h2

theorem drainBits_length_ge (fuel : Nat) :
    ∀ res buf bib, res.length ≤ (drainBits fuel res buf bib).1.length := by
  induction fuel with
  | zero => intro res buf bib; simp [drainBits]
  | succ f ih =>
    intro res buf bib
    show res.length ≤ (if 8 ≤ bib then
      drainBits f (res ++ [(buf >>> (bib - 8)) % 256]) (buf % 2 ^ (bib - 8)) (bib - 8)
      else (res, buf, bib)).1.length
    split
    · calc res.length ≤ (res ++ [(buf >>> (bib - 8)) % 256]).length := by simp
        _ ≤ _ := ih _ _ _
    · simp

theorem drainBits_length_gt {fuel bib : Nat} (res : List Nat) (buf : Nat)
    (h8 : 8 ≤ bib) (hf : 1 ≤ fuel) :
    res.length + 1 ≤ (drainBits fuel res buf bib).1.length := by
  obtain ⟨f, rfl⟩ : ∃ f, fuel = f + 1 := ⟨fuel - 1, by omega⟩
  show res.length + 1 ≤ (if 8 ≤ bib then
    drainBits f (res ++ [(buf >>> (bib - 8)) % 256]) (buf % 2 ^ (bib - 8)) (bib - 8)
    else (res, buf, bib)).1.length
  rw [if_pos h8]
  calc res.length + 1 = (res ++ [(buf >>> (bib - 8)) % 256]).length := by simp
    _ ≤ _ := drainBits_length_ge f _ _ _

theorem codesToBytes_foldl_length (l : List Nat) :
    ∀ acc : List Nat × Nat × Nat,
      acc.1.length ≤ ((l.foldl (fun (acc : List Nat × Nat × Nat) code =>
        drainBits 3 acc.1 ((acc.2.1 <<< 12) ||| code) (acc.2.2 + 12)) acc)).1.length := by
  induction l with
  | nil => intro acc; simp
  | cons c t ih =>
    intro acc
    calc acc.1.length ≤ (drainBits 3 acc.1 ((acc.2.1 <<< 12) ||| c) (acc.2.2 + 12)).1.length :=
        drainBits_length_ge 3 _ _ _
      _ ≤ _ := ih _

theorem codesToBytes_ne_nil {codes : List Nat} (h : codes ≠ []) : codesToBytes codes ≠ [] := by
  obtain ⟨c0, cs, rfl⟩ := List.exists_cons_of_ne_nil h
  show (let r := (c0 :: cs).foldl (fun (acc : List Nat × Nat × Nat) code =>
      drainBits 3 acc.1 ((acc.2.1 <<< 12) ||| code) (acc.2.2 + 12)) ([], 0, 0)
    r.1 ++ (if 0 < r.2.2 then [(r.2.1 <<< (8 - r.2.2)) % 256] else [])) ≠ []
  intro h0
  have hlen : 1 ≤ ((c0 :: cs).foldl (fun (acc : List Nat × Nat × Nat) code =>
      drainBits 3 acc.1 ((acc.2.1 <<< 12) ||| code) (acc.2.2 + 12)) ([], 0, 0)).1.length := by
    simp only [List.foldl_cons]
    calc (1 : Nat) = ([] : List Nat).length + 1 := by simp
      _ ≤ (drainBits 3 [] ((0 <<< 12) ||| c0) (0 + 12)).1.length :=
          drainBits_length_gt [] _ (by omega) (by omega)
      _ ≤ _ := codesToBytes_foldl_length cs _
  have := congrArg List.length h0
  simp only [List.length_append, List.length_nil] at this
  omega

theorem decRun_snoc {codes : List Nat} {dec : LZWDec} (hrun : decRun codes = .ok dec)
    (cw : Nat) : decRun (codes ++ [cw]) = lzwDecStep dec cw := by
  have hcodes_ne : codes ≠ [] := by
    intro h0
    rw [h0] at hrun
    exact absurd hrun (by simp [decRun])
  obtain ⟨c0, cs, rfl⟩ := List.exists_cons_of_ne_nil hcodes_ne
  show (match dictGet lzwRevSeed c0 with
      | none => (Except.error "KeyError: reverse_dict" : Except String LZWDec)
      | some p0 => lzwDecRun ⟨p0, p0, lzwRevSeed, 256⟩ (cs ++ [cw])) = _
  have hrun' : (match dictGet lzwRevSeed c0 with
      | none => (Except.error "KeyError: reverse_dict" : Except String LZWDec)
      | some p0 => lzwDecRun ⟨p0, p0, lzwRevSeed, 256⟩ cs) = Except.ok dec := hrun
  rcases hseed : dictGet lzwRevSeed c0 with _ | p0
  · rw [hseed] at hrun'
    cases hrun'
  · have hrun2 : lzwDecRun ⟨p0, p0, lzwRevSeed, 256⟩ cs = Except.ok dec := by
      rw [hseed] at hrun'
      exact hrun'
    show lzwDecRun ⟨p0, p0, lzwRevSeed, 256⟩ (cs ++ [cw]) = _
    rw [lzwDecRun_append, hrun2]

theorem lzw_roundtrip_aux {u : List Nat} {E : LZWEnc} (hsim : Sim u E) :
    ∃ st, decRun (E.codes ++ [(dictGet E.dict E.current).getD 0]) = .ok st ∧ st.result = u := by
  obtain ⟨hwf, hph⟩ := hsim
  obtain ⟨cw, hcw⟩ := Option.isSome_iff_exists.1 hwf.cur_mem
  have hgetD : (dictGet E.dict E.current).getD 0 = cw := by rw [hcw]; rfl
  rcases hph with ⟨hcodes, hdictseed, hnext256, hu, b0, hb0, hcur⟩ |
    ⟨dec, hrun, hu, hprev, hkeys, hnexteq, hrel⟩
  · have hcwb0 : cw = b0 := by
      rw [hdictseed, hcur, dictGet_lzwSeed hb0] at hcw
      exact (Option.some.inj hcw).symm
    refine ⟨⟨[b0], [b0], lzwRevSeed, 256⟩, ?_, ?_⟩
    · rw [hgetD, hcodes, hcwb0]
      show decRun [b0] = _
      simp [decRun, dictGet_lzwRevSeed hb0, lzwDecRun]
    · show [b0] = u
      rw [hu, hcur]
  · obtain ⟨rev', hstep, hmirr, hkeys', hlen'⟩ := decStep_emit hwf hprev hkeys hnexteq hrel hcw
    refine ⟨⟨dec.result ++ E.current, E.current, rev', E.next_code⟩, ?_, ?_⟩
    · rw [hgetD, decRun_snoc hrun, hstep]
    · show dec.result ++ E.current = u
      rw [hu]

/-- C3: LZW round-trips on every byte sequence (bytes below 256, as Python
`bytes` elements are); the decoder rebuilds the dictionary in lockstep
from the emitted codes alone. -/
theorem lzw_roundtrip :
    ∀ data : List Nat, (∀ b ∈ data, b < 256) →
      LZWCompressor.decompress (LZWCompressor.compress data).1
        (LZWCompressor.compress data).2 = .ok data := by
  intro data hdata
  rcases data with _ | ⟨d0, rest⟩
  · rfl
  · have hsim := sim_foldl rest [d0] ⟨lzwSeed, 256, [], [d0]⟩
      (sim_init (hdata d0 (List.mem_cons_self _ _)))
      (fun x hx => hdata x (List.mem_cons_of_mem _ hx))
    obtain ⟨st, hdec, hres⟩ := lzw_roundtrip_aux hsim
    have hcodes_ne : ((rest.foldl lzwStep ⟨lzwSeed, 256, [], [d0]⟩).codes ++
        [(dictGet (rest.foldl lzwStep ⟨lzwSeed, 256, [], [d0]⟩).dict
          (rest.foldl lzwStep ⟨lzwSeed, 256, [], [d0]⟩).current).getD 0]) ≠ [] := by simp
    have hbytes_ne := codesToBytes_ne_nil hcodes_ne
    have hbytes_ne' : ¬ (codesToBytes ((rest.foldl lzwStep ⟨lzwSeed, 256, [], [d0]⟩).codes ++
        [(dictGet (rest.foldl lzwStep ⟨lzwSeed, 256, [], [d0]⟩).dict
          (rest.foldl lzwStep ⟨lzwSeed, 256, [], [d0]⟩).current).getD 0])).isEmpty := by
      rcases hx : codesToBytes ((rest.foldl lzwStep ⟨lzwSeed, 256, [], [d0]⟩).codes ++
        [(dictGet (rest.foldl lzwStep ⟨lzwSeed, 256, [], [d0]⟩).dict
          (rest.foldl lzwStep ⟨lzwSeed, 256, [], [d0]⟩).current).getD 0]) with _ | _
      · exact absurd hx hbytes_ne
      · simp
    show LZWCompressor.decompress
      (codesToBytes ((rest.foldl lzwStep ⟨lzwSeed, 256, [], [d0]⟩).codes ++
        [(dictGet (rest.foldl lzwStep ⟨lzwSeed, 256, [], [d0]⟩).dict
          (rest.foldl lzwStep ⟨lzwSeed, 256, [], [d0]⟩).current).getD 0]))
      ⟨some ((rest.foldl lzwStep ⟨lzwSeed, 256, [], [d0]⟩).codes ++
        [(dictGet (rest.foldl lzwStep ⟨lzwSeed, 256, [], [d0]⟩).dict
          (rest.foldl lzwStep ⟨lzwSeed, 256, [], [d0]⟩).current).getD 0]),
        some 12, some 4096⟩ = .ok (d0 :: rest)
    unfold LZWCompressor.decompress
    rw [if_neg hbytes_ne']
    simp only
    rw [hdec]
    show Except.ok st.result = _
    rw [hres]
    rfl

/-- Witness for `lzw_roundtrip` at the concrete input `[97, 98, 97, 98, 97]`. -/
theorem lzw_roundtrip_witness :
    (∀ b ∈ ([97, 98, 97, 98, 97] : List Nat), b < 256) ∧
      LZWCompressor.decompress (LZWCompressor.compress [97, 98, 97, 98, 97]).1
        (LZWCompressor.compress [97, 98, 97, 98, 97]).2 = .ok [97, 98, 97, 98, 97] :=
  ⟨by decide, lzw_roundtrip [97, 98, 97, 98, 97] (by decide)⟩

/-- C6: during a compress call the dictionary always holds at most 4096
entries, always extends the 256-entry seed monotonically, and every code
appended to the emitted list is a value of the dictionary at the time of
emission (including the final flush emission). -/
theorem lzw_dict_invariant (d0 : Nat) (rest : List Nat) (hd0 : d0 < 256)
    (hrest : ∀ x ∈ rest, x < 256) :
    (∀ pre b suf, rest = pre ++ b :: suf →
      (pre.foldl lzwStep ⟨lzwSeed, 256, [], [d0]⟩).dict.length ≤ 4096 ∧
      lzwSeed <+: (pre.foldl lzwStep ⟨lzwSeed, 256, [], [d0]⟩).dict ∧
      (pre.foldl lzwStep ⟨lzwSeed, 256, [], [d0]⟩).dict <+:
        (lzwStep (pre.foldl lzwStep ⟨lzwSeed, 256, [], [d0]⟩) b).dict ∧
      ((lzwStep (pre.foldl lzwStep ⟨lzwSeed, 256, [], [d0]⟩) b).codes =
          (pre.foldl lzwStep ⟨lzwSeed, 256, [], [d0]⟩).codes ∨
        ∃ c, (lzwStep (pre.foldl lzwStep ⟨lzwSeed, 256, [], [d0]⟩) b).codes =
            (pre.foldl lzwStep ⟨lzwSeed, 256, [], [d0]⟩).codes ++ [c] ∧
          c ∈ (pre.foldl lzwStep ⟨lzwSeed, 256, [], [d0]⟩).dict.map Prod.snd)) ∧
    ((rest.foldl lzwStep ⟨lzwSeed, 256, [], [d0]⟩).dict.length ≤ 4096 ∧
      lzwSeed <+: (rest.foldl lzwStep ⟨lzwSeed, 256, [], [d0]⟩).dict ∧
      ∃ c, dictGet (rest.foldl lzwStep ⟨lzwSeed, 256, [], [d0]⟩).dict
          (rest.foldl lzwStep ⟨lzwSeed, 256, [], [d0]⟩).current = some c ∧
        c ∈ (rest.foldl lzwStep ⟨lzwSeed, 256, [], [d0]⟩).dict.map Prod.snd) := by
  constructor
  · intro pre b suf hsplit
    have hwf : EncWF (pre.foldl lzwStep ⟨lzwSeed, 256, [], [d0]⟩) :=
      encWF_foldl _ (encWF_init hd0)
        (fun x hx => hrest x (hsplit ▸ List.mem_append_left _ hx))
    refine ⟨?_, hwf.seed_le, lzwStep_dict_mono _ _, lzwStep_codes hwf⟩
    rw [← hwf.next_eq]
    exact hwf.next_le
  · have hwf : EncWF (rest.foldl lzwStep ⟨lzwSeed, 256, [], [d0]⟩) :=
      encWF_foldl _ (encWF_init hd0) hrest
    obtain ⟨c, hc⟩ := Option.isSome_iff_exists.1 hwf.cur_mem
    refine ⟨?_, hwf.seed_le, c, hc,
      List.mem_map.2 ⟨(_, c), mem_of_dictGet_eq_some hc, rfl⟩⟩
    rw [← hwf.next_eq]
    exact hwf.next_le

/-- Witness for `lzw_dict_invariant` at `data = [97, 98, 97]`, exercising
the split `rest = [98] ++ 97 :: []`. -/
theorem lzw_dict_invariant_witness :
    (97 : Nat) < 256 ∧ (∀ x ∈ ([98, 97] : List Nat), x < 256) ∧
      (([98, 97] : List Nat) = [98] ++ 97 :: []) ∧
      ((∀ pre b suf, ([98, 97] : List Nat) = pre ++ b :: suf →
        (pre.foldl lzwStep ⟨lzwSeed, 256, [], [97]⟩).dict.length ≤ 4096 ∧
        lzwSeed <+: (pre.foldl lzwStep ⟨lzwSeed, 256, [], [97]⟩).dict ∧
        (pre.foldl lzwStep ⟨lzwSeed, 256, [], [97]⟩).dict <+:
          (lzwStep (pre.foldl lzwStep ⟨lzwSeed, 256, [], [97]⟩) b).dict ∧
        ((lzwStep (pre.foldl lzwStep ⟨lzwSeed, 256, [], [97]⟩) b).codes =
            (pre.foldl lzwStep ⟨lzwSeed, 256, [], [97]⟩).codes ∨
          ∃ c, (lzwStep (pre.foldl lzwStep ⟨lzwSeed, 256, [], [97]⟩) b).codes =
              (pre.foldl lzwStep ⟨lzwSeed, 256, [], [97]⟩).codes ++ [c] ∧
            c ∈ (pre.foldl lzwStep ⟨lzwSeed, 256, [], [97]⟩).dict.map Prod.snd)) ∧
      (([98, 97].foldl lzwStep ⟨lzwSeed, 256, [], [97]⟩).dict.length ≤ 4096 ∧
        lzwSeed <+: ([98, 97].foldl lzwStep ⟨lzwSeed, 256, [], [97]⟩).dict ∧
        ∃ c, dictGet ([98, 97].foldl lzwStep ⟨lzwSeed, 256, [], [97]⟩).dict
            ([98, 97].foldl lzwStep ⟨lzwSeed, 256, [], [97]⟩).current = some c ∧
          c ∈ ([98, 97].foldl lzwStep ⟨lzwSeed, 256, [], [97]⟩).dict.map Prod.snd)) :=
  ⟨by decide, by decide, by decide, lzw_dict_invariant 97 [98, 97] (by decide) (by decide)⟩

/-! ### Arithmetic codec (`src/src/algorithms/arithmetic.py`)

The program instantiates `ArithmeticCompressor` with the default
`precision = 32`.  Python ints are modelled with `Int` where a value could
go below zero (interval bounds, decoder target); `//` is `Int.fdiv`
(floor division).  The transient instance attributes `_bit_buffer`,
`_bits_in_buffer`, `_pending_bits` (lazily created by `_emit_bit`) and
`_output_bytes` (lazily created at the first whole-byte flush) are an
explicit `ArithState` threaded through every call: `initialized` and
`has_output` are the two `hasattr` flags.  `_normalize_frequencies`
computes float probabilities that are never read again, so it is omitted.
`self._pending_bits += 1` before any `_emit_bit` call would raise
`AttributeError`; that branch is an explicit error. -/

def arithMaxValue : Int := 2 ^ 32 - 1

def arithHalf : Int := 2 ^ 31

def arithQuarter : Int := 2 ^ 30

structure ArithState where
  initialized : Bool
  bit_buffer : Nat
  bits_in_buffer : Nat
  pending_bits : Nat
  has_output : Bool
  output_bytes : List Nat
deriving DecidableEq

def freshArith : ArithState := ⟨false, 0, 0, 0, false, []⟩

/-- The `while self._pending_bits > 0` loop inside `_emit_bit`, appending
`pending` copies of the complement bit. -/
def emitPendingLoop (invbit : Nat) : Nat → Nat → Nat → Nat × Nat
  | 0, buf, bib => (buf, bib)
  | p + 1, buf, bib => emitPendingLoop invbit p (2 * buf + invbit) (bib + 1)

/-- `ArithmeticCompressor._emit_bit`.  A single `if` flushes at most one
byte per call, exactly as in the source. -/
def emitBit (st : ArithState) (bit : Nat) : ArithState :=
  let st := if st.initialized then st else
    { st with initialized := true, bit_buffer := 0, bits_in_buffer := 0, pending_bits := 0 }
  let bb := emitPendingLoop (1 - bit) st.pending_bits (2 * st.bit_buffer + bit)
    (st.bits_in_buffer + 1)
  if 8 ≤ bb.2 then
    { st with
      bit_buffer := bb.1 % (2 ^ (bb.2 - 8)),
      bits_in_buffer := bb.2 - 8,
      pending_bits := 0,
      has_output := true,
      output_bytes := st.output_bytes ++ [bb.1 >>> (bb.2 - 8)] }
  else
    { st with bit_buffer := bb.1, bits_in_buffer := bb.2, pending_bits := 0 }

/-- `ArithmeticCompressor._bits_to_bytes`: returns `b''` when
`_output_bytes` was never created — dropping any bits still in the
buffer — and otherwise appends the final partial byte into the instance's
`_output_bytes` (a mutation that survives the call).  For
`bits_in_buffer > 8` Python's negative shift would raise; that state is
not reached in the evaluations below. -/
def bitsToBytesArith (st : ArithState) : List Nat × ArithState :=
  if !st.has_output then ([], st)
  else if 0 < st.bits_in_buffer then
    let st' := { st with
      output_bytes := st.output_bytes ++ [st.bit_buffer <<< (8 - st.bits_in_buffer)] }
    (st'.output_bytes, st')
  else (st.output_bytes, st)

/-- The encoder's `while True` renormalization; the loop runs at most 31
times per symbol (the interval width strictly grows while below
`arithHalf`), so fuel 64 is never exhausted. -/
def arithRenorm : Nat → Int → Int → ArithState → Except String (Int × Int × ArithState)
  | 0, low, high, st => .ok (low, high, st)
  | fuel + 1, low, high, st =>
    if high < arithHalf then
      arithRenorm fuel (2 * low) (2 * high + 1) (emitBit st 0)
    else if arithHalf ≤ low then
      arithRenorm fuel (2 * (low - arithHalf)) (2 * (high - arithHalf) + 1) (emitBit st 1)
    else if arithQuarter ≤ low ∧ high < 3 * arithQuarter then
      if st.initialized then
        arithRenorm fuel (2 * (low - arithQuarter)) (2 * (high - arithQuarter) + 1)
          { st with pending_bits := st.pending_bits + 1 }
      else .error "AttributeError: _pending_bits"
    else .ok (low, high, st)

/-- `_build_cumulative_freq`: cumulative counts over the keys in ascending
order.  `sorted(...)` is replaced by insertion sort, which agrees with any
correct sort on the duplicate-free key list. -/
def buildCumulative (freq : List (Nat × Nat)) : List (Nat × Nat) × Nat :=
  ((freq.map Prod.fst).insertionSort (· ≤ ·)).foldl
    (fun (acc : List (Nat × Nat) × Nat) c =>
      (acc.1 ++ [(c, acc.2)], acc.2 + (dictGet freq c).getD 0)) ([], 0)

/-- One iteration of the encoder's `for byte in data` loop (interval
narrowing followed by renormalization), threading the `Except` for the
`AttributeError` branch.  The table lookups cannot fail here because both
tables are built from `data` itself. -/
def arithEncodeStep (freq cum : List (Nat × Nat)) (total : Nat)
    (acc : Except String (Int × Int × ArithState)) (byte : Nat) :
    Except String (Int × Int × ArithState) :=
  match acc with
  | .error e => .error e
  | .ok (low, high, st) =>
    let range := high - low + 1
    let cumb : Int := ((dictGet cum byte).getD 0 : Nat)
    let fb : Int := ((dictGet freq byte).getD 0 : Nat)
    let char_low := low + Int.fdiv (range * cumb) total
    let char_high := low + Int.fdiv (range * (cumb + fb)) total - 1
    arithRenorm 64 char_low char_high st

structure ArithMeta where
  freq_table : Option (List (Nat × Nat))
  total_symbols : Option Nat
  cumulative_freq : Option (List (Nat × Nat))
  total_freq : Option Nat
deriving DecidableEq

namespace ArithmeticCompressor

/-- `ArithmeticCompressor.compress`, with the instance state explicit. -/
def compress (st : ArithState) (data : List Nat) :
    Except String (List Nat × ArithMeta × ArithState) :=
  if data.isEmpty then .ok ([], ⟨some [], some 0, none, none⟩, st)
  else
    let freq := buildFreq data
    let ct := buildCumulative freq
    match data.foldl (arithEncodeStep freq ct.1 ct.2) (.ok (0, arithMaxValue, st)) with
    | .error e => .error e
    | .ok (_, _, st1) =>
      let st2 := emitBit st1 1
      let r := bitsToBytesArith st2
      .ok (r.1, ⟨some freq, some data.length, some ct.1, some ct.2⟩, r.2)

end ArithmeticCompressor

/-- The decoder's renormalization, shifting the next undecoded bit (or 0
past the end) into `value`. -/
def arithDecRenorm (bits : List Bool) :
    Nat → Int → Int → Int → Nat → Int × Int × Int × Nat
  | 0, low, high, value, bi => (low, high, value, bi)
  | fuel + 1, low, high, value, bi =>
    let nextbit : Int := cond (bits.getD bi false) 1 0
    if high < arithHalf then
      arithDecRenorm bits fuel (2 * low) (2 * high + 1) (2 * value + nextbit) (bi + 1)
    else if arithHalf ≤ low then
      arithDecRenorm bits fuel (2 * (low - arithHalf)) (2 * (high - arithHalf) + 1)
        (2 * (value - arithHalf) + nextbit) (bi + 1)
    else if arithQuarter ≤ low ∧ high < 3 * arithQuarter then
      arithDecRenorm bits fuel (2 * (low - arithQuarter)) (2 * (high - arithQuarter) + 1)
        (2 * (value - arithQuarter) + nextbit) (bi + 1)
    else (low, high, value, bi)

/-- The decoder's `for _ in range(total_symbols)` loop; the ordered scan
over `cumulative_freq.items()` is `find?`, and a failed scan is the
source's `break`.  (`freq_table[char]` on a symbol missing from an
inconsistent metadata record would raise in Python; the tables produced
by `compress` always agree.) -/
def arithDecLoop (freq cum : List (Nat × Nat)) (total : Int) (bits : List Bool) :
    Nat → Int → Int → Int → Nat → List Nat → List Nat
  | 0, _, _, _, _, result => result
  | n + 1, low, high, value, bi, result =>
    let range := high - low + 1
    let target := Int.fdiv ((value - low + 1) * total - 1) range
    match cum.find? (fun p => decide ((p.2 : Int) ≤ target) &&
        decide (target < (p.2 : Int) + ((dictGet freq p.1).getD 0 : Nat))) with
    | none => result
    | some p =>
      let cumb : Int := (p.2 : Nat)
      let fb : Int := ((dictGet freq p.1).getD 0 : Nat)
      let char_low := low + Int.fdiv (range * cumb) total
      let char_high := low + Int.fdiv (range * (cumb + fb)) total - 1
      let r := arithDecRenorm bits 64 char_low char_high value bi
      arithDecLoop freq cum total bits n r.1 r.2.1 r.2.2.1 r.2.2.2 (result ++ [p.1])

namespace ArithmeticCompressor

/-- `ArithmeticCompressor.decompress`. -/
def decompress (compressed : List Nat) (md : ArithMeta) : Except String (List Nat) :=
  if compressed.isEmpty then .ok []
  else
    match md.freq_table with
    | none => .error "KeyError: freq_table"
    | some freq =>
      match md.total_symbols with
      | none => .error "KeyError: total_symbols"
      | some total_symbols =>
        match md.cumulative_freq with
        | none => .error "KeyError: cumulative_freq"
        | some cum =>
          match md.total_freq with
          | none => .error "KeyError: total_freq"
          | some total =>
            let bits := bytesToBits compressed
            let value : Int := (bits.take 32).foldl (fun a b => 2 * a + cond b 1 0) 0
            .ok (arithDecLoop freq cum (total : Int) bits total_symbols 0 arithMaxValue
              value 32 [])

end ArithmeticCompressor

/-- C1: the arithmetic round-trip fails on the single byte `b'A'` (65):
only one distinct symbol means the interval never narrows, only the final
flush bit is emitted, `_bits_to_bytes` drops it because `_output_bytes`
was never created, and decoding the empty compressed stream returns
`b''` — not `b'A'`. -/
theorem arithmetic_roundtrip_fails_single_byte :
    ArithmeticCompressor.compress freshArith [65] =
      .ok ([], ⟨some [(65, 1)], some 1, some [(65, 0)], some 1⟩, ⟨true, 1, 1, 0, false, []⟩) ∧
    ArithmeticCompressor.decompress []
      (⟨some [(65, 1)], some 1, some [(65, 0)], some 1⟩ : ArithMeta) = .ok [] ∧
    (([] : List Nat) ≠ [65]) :=
  ⟨rfl, rfl, by decide⟩

/-- The compressed bytes of a first compress call on a fresh instance. -/
def arithFirstOutput (data : List Nat) : Except String (List Nat) :=
  match ArithmeticCompressor.compress freshArith data with
  | .error e => .error e
  | .ok r => .ok r.1

/-- The compressed bytes of a second compress call on the same instance,
starting from the state the first call left behind. -/
def arithSecondOutput (data : List Nat) : Except String (List Nat) :=
  match ArithmeticCompressor.compress freshArith data with
  | .error e => .error e
  | .ok r =>
    match ArithmeticCompressor.compress r.2.2 data with
    | .error e => .error e
    | .ok r2 => .ok r2.1

/-- C4: the bit buffer, bit count and output byte list survive between
calls (`hasattr` lazy init, no reset), so compressing the same input
twice on one instance yields different compressed bytes: the second call
returns the first call's bytes plus its own. -/
theorem arithmetic_stale_state_changes_output :
    arithFirstOutput [0, 1, 0, 1, 0, 1, 0, 1] = .ok [85, 128] ∧
    arithSecondOutput [0, 1, 0, 1, 0, 1, 0, 1] = .ok [85, 128, 170, 192] ∧
    (([85, 128] : List Nat) ≠ [85, 128, 170, 192]) :=
  ⟨rfl, rfl, by decide⟩

/-! ### Cumulative frequency table invariants -/

/-- Recursive presentation of the cumulative fold. -/
def cumList (f : Nat → Nat) : List Nat → Nat → List (Nat × Nat)
  | [], _ => []
  | c :: r, t => (c, t) :: cumList f r (t + f c)

theorem foldl_cum_eq (freq : List (Nat × Nat)) (l : List Nat) :
    ∀ (acc : List (Nat × Nat)) (t : Nat),
      l.foldl (fun (acc : List (Nat × Nat) × Nat) c =>
          (acc.1 ++ [(c, acc.2)], acc.2 + (dictGet freq c).getD 0)) (acc, t) =
        (acc ++ cumList (fun c => (dictGet freq c).getD 0) l t,
          t + (l.map (fun c => (dictGet freq c).getD 0)).sum) := by
  induction l with
  | nil => intro acc t; simp [cumList]
  | cons c r ih =>
    intro acc t
    simp only [List.foldl_cons, cumList, ih, List.map_cons, List.sum_cons]
    simp [List.append_assoc, Nat.add_assoc]

theorem cumList_keys (f : Nat → Nat) :
    ∀ (l : List Nat) (t : Nat), (cumList f l t).map Prod.fst = l := by
  intro l
  induction l with
  | nil => intro t; rfl
  | cons c r ih => intro t; simp [cumList, ih]

theorem cumList_snd_ge (f : Nat → Nat) :
    ∀ (l : List Nat) (t : Nat), ∀ p ∈ cumList f l t, t ≤ p.2 := by
  intro l
  induction l with
  | nil => intro t p hp; cases hp
  | cons c r ih =>
    intro t p hp
    rcases List.mem_cons.1 hp with rfl | hp
    · simp
    · have := ih (t + f c) p hp
      omega

theorem cumList_pairwise (f : Nat → Nat) :
    ∀ (l : List Nat) (t : Nat), (∀ c ∈ l, 1 ≤ f c) → l.Pairwise (· < ·) →
      (cumList f l t).Pairwise (fun p q => p.1 < q.1 ∧ p.2 < q.2) := by
  intro l
  induction l with
  | nil => intro t _ _; exact List.Pairwise.nil
  | cons c r ih =>
    intro t hf hs
    rw [List.pairwise_cons] at hs
    refine List.Pairwise.cons ?_ (ih (t + f c)
      (fun x hx => hf x (List.mem_cons_of_mem _ hx)) hs.2)
    intro q hq
    constructor
    · have hq1 : q.1 ∈ r := by
        have := cumList_keys f r (t + f c) ▸ List.mem_map.2 ⟨q, hq, rfl⟩
        exact this
      exact hs.1 q.1 hq1
    · have h1 := cumList_snd_ge f r (t + f c) q hq
      have h2 := hf c (List.mem_cons_self _ _)
      show t < q.2
      omega

theorem cumList_snd_eq (f : Nat → Nat) :
    ∀ (l : List Nat) (t : Nat), l.Pairwise (· < ·) →
      ∀ p ∈ cumList f l t, p.2 = t + ((l.filter (fun x => x < p.1)).map f).sum := by
  intro l
  induction l with
  | nil => intro t _ p hp; cases hp
  | cons c r ih =>
    intro t hs p hp
    rw [List.pairwise_cons] at hs
    rcases List.mem_cons.1 hp with rfl | hp
    · have hfilter : (c :: r).filter (fun x => x < c) = [] := by
        rw [List.filter_eq_nil_iff]
        intro a ha
        rcases List.mem_cons.1 ha with rfl | ha
        · simp
        · have := hs.1 a ha
          simp
          omega
      rw [hfilter]
      simp
    · have hq1 : p.1 ∈ r := by
        have := cumList_keys f r (t + f c) ▸ List.mem_map.2 ⟨p, hp, rfl⟩
        exact this
      have hcp : c < p.1 := hs.1 p.1 hq1
      have := ih (t + f c) hs.2 p hp
      rw [show (c :: r).filter (fun x => x < p.1) = c :: r.filter (fun x => x < p.1) from by
        simp [List.filter_cons, hcp]]
      simp only [List.map_cons, List.sum_cons]
      omega

theorem cumList_last (f : Nat → Nat) :
    ∀ (l : List Nat) (t : Nat), l ≠ [] →
      ∃ p, (cumList f l t).getLast? = some p ∧ p.2 + f p.1 = t + (l.map f).sum := by
  intro l
  induction l with
  | nil => intro t h; exact absurd rfl h
  | cons c r ih =>
    intro t _
    rcases r with _ | ⟨c2, r2⟩
    · exact ⟨(c, t), rfl, by simp [cumList]⟩
    · obtain ⟨p, hp1, hp2⟩ := ih (t + f c) (by simp)
      refine ⟨p, ?_, by simp only [List.map_cons, List.sum_cons] at hp2 ⊢; omega⟩
      show ((c, t) :: cumList f (c2 :: r2) (t + f c)).getLast? = some p
      rcases hcl : cumList f (c2 :: r2) (t + f c) with _ | ⟨x, xs⟩
      · cases hcl
      · rw [hcl] at hp1
        rw [List.getLast?_cons_cons]
        exact hp1

theorem arith_compress_unfold {data : List Nat} (hd : ¬ data.isEmpty) (st0 : ArithState) :
    ArithmeticCompressor.compress st0 data =
      match data.foldl (arithEncodeStep (buildFreq data) (buildCumulative (buildFreq data)).1
          (buildCumulative (buildFreq data)).2) (.ok (0, arithMaxValue, st0)) with
      | .error e => .error e
      | .ok (_, _, st1) =>
        .ok ((bitsToBytesArith (emitBit st1 1)).1,
          ⟨some (buildFreq data), some data.length, some (buildCumulative (buildFreq data)).1,
            some (buildCumulative (buildFreq data)).2⟩,
          (bitsToBytesArith (emitBit st1 1)).2) := by
  unfold ArithmeticCompressor.compress
  rw [if_neg hd]

theorem dictGet_self {freq : List (Nat × Nat)} (hnd : (freq.map Prod.fst).Nodup) :
    ∀ p ∈ freq, (dictGet freq p.1).getD 0 = p.2 := by
  intro p hp
  rw [dictGet_eq_some_of_mem hnd (show (p.1, p.2) ∈ freq from hp)]
  rfl

/-- C8: the cumulative table compress stores in the metadata is strictly
increasing in ascending symbol order, each entry is the sum of the counts
of all earlier symbols, and the last entry plus its count is the total,
which is the input length. -/
theorem arithmetic_cumulative_invariant (data : List Nat) (hd : data ≠ []) :
    (∀ out md st, ArithmeticCompressor.compress freshArith data = .ok (out, md, st) →
      md.cumulative_freq = some (buildCumulative (buildFreq data)).1 ∧
      md.total_freq = some (buildCumulative (buildFreq data)).2) ∧
    List.Pairwise (fun p q : Nat × Nat => p.1 < q.1 ∧ p.2 < q.2)
      (buildCumulative (buildFreq data)).1 ∧
    (∀ p ∈ (buildCumulative (buildFreq data)).1,
      p.2 = (((buildFreq data).filter (fun q => q.1 < p.1)).map Prod.snd).sum) ∧
    (∃ plast, (buildCumulative (buildFreq data)).1.getLast? = some plast ∧
      plast.2 + (dictGet (buildFreq data) plast.1).getD 0 =
        (buildCumulative (buildFreq data)).2) ∧
    (buildCumulative (buildFreq data)).2 = data.length := by
  have hdne : ¬ data.isEmpty := by
    rcases data with _ | _
    · exact absurd rfl hd
    · simp
  have hknd : ((buildFreq data).map Prod.fst).Nodup := buildFreq_keys_nodup data
  have hperm : ((buildFreq data).map Prod.fst).insertionSort (· ≤ ·) |>.Perm
      ((buildFreq data).map Prod.fst) := List.perm_insertionSort _ _
  have hsorted : (((buildFreq data).map Prod.fst).insertionSort (· ≤ ·)).Pairwise (· < ·) :=
    ((List.sorted_insertionSort _ _).and (hperm.symm.nodup hknd)).imp
      (fun hab => lt_of_le_of_ne hab.1 hab.2)
  have hpt : ∀ p ∈ buildFreq data, (dictGet (buildFreq data) p.1).getD 0 = p.2 :=
    dictGet_self hknd
  have hbc : buildCumulative (buildFreq data) =
      (cumList (fun c => (dictGet (buildFreq data) c).getD 0)
        (((buildFreq data).map Prod.fst).insertionSort (· ≤ ·)) 0,
        ((((buildFreq data).map Prod.fst).insertionSort (· ≤ ·)).map
          (fun c => (dictGet (buildFreq data) c).getD 0)).sum) := by
    unfold buildCumulative
    rw [foldl_cum_eq]
    simp
  have hfge : ∀ c ∈ ((buildFreq data).map Prod.fst).insertionSort (· ≤ ·),
      1 ≤ (dictGet (buildFreq data) c).getD 0 := by
    intro c hc
    have hck : c ∈ (buildFreq data).map Prod.fst := hperm.subset hc
    obtain ⟨p, hp, hpc⟩ := List.mem_map.1 hck
    subst hpc
    rw [hpt p hp]
    exact buildFreq_snd_pos data p hp
  -- total sum over sorted keys equals data length
  have hmapsum : ∀ l : List Nat, l.Perm ((buildFreq data).map Prod.fst) →
      (l.map (fun c => (dictGet (buildFreq data) c).getD 0)).sum = data.length := by
    intro l hl
    rw [List.Perm.sum_eq (hl.map _), List.map_map]
    have hmc : List.map ((fun c => (dictGet (buildFreq data) c).getD 0) ∘ Prod.fst)
        (buildFreq data) = List.map Prod.snd (buildFreq data) :=
      List.map_congr_left (fun p hp => hpt p hp)
    rw [hmc]
    exact buildFreq_snd_sum data
  refine ⟨?_, ?_, ?_, ?_, ?_⟩
  · intro out md st h
    rw [arith_compress_unfold hdne] at h
    rcases hfold : data.foldl (arithEncodeStep (buildFreq data)
        (buildCumulative (buildFreq data)).1 (buildCumulative (buildFreq data)).2)
        (.ok (0, arithMaxValue, freshArith)) with e | ⟨l, hh, st1⟩
    · rw [hfold] at h
      cases h
    · rw [hfold] at h
      injection h with h2
      rw [Prod.mk.injEq] at h2
      obtain ⟨h3, h4⟩ := h2
      rw [Prod.mk.injEq] at h4
      rw [← h4.1]
      exact ⟨rfl, rfl⟩
  · rw [hbc]
    exact cumList_pairwise _ _ 0 hfge hsorted
  · intro p hp
    rw [hbc] at hp
    have := cumList_snd_eq _ _ 0 hsorted p hp
    rw [this, Nat.zero_add]
    -- convert the sorted-keys filter sum to the table filter sum
    have hfperm : (((buildFreq data).map Prod.fst).insertionSort (· ≤ ·)).filter
        (fun x => x < p.1) |>.Perm (((buildFreq data).map Prod.fst).filter
        (fun x => x < p.1)) := hperm.filter _
    rw [List.Perm.sum_eq (hfperm.map _)]
    have h1 : (((buildFreq data).map Prod.fst).filter (fun x => x < p.1)) =
        ((buildFreq data).filter (fun q => q.1 < p.1)).map Prod.fst := by
      rw [List.filter_map]
      rfl
    rw [h1, List.map_map]
    congr 1
    exact List.map_congr_left (fun q hq => hpt q (List.mem_of_mem_filter hq))
  · rw [hbc]
    have hkne : (buildFreq data).map Prod.fst ≠ [] := by
      rcases data with _ | ⟨d, rest⟩
      · exact absurd rfl hd
      · have hm := mem_buildFreq_keys (List.mem_cons_self d rest)
        intro h0
        rw [h0] at hm
        cases hm
    have hsne : ((buildFreq data).map Prod.fst).insertionSort (· ≤ ·) ≠ [] := by
      intro h0
      exact hkne (List.Perm.eq_nil (h0 ▸ hperm.symm))
    obtain ⟨p, hp1, hp2⟩ := cumList_last _ _ 0 hsne
    exact ⟨p, hp1, by rw [hp2, Nat.zero_add, hmapsum _ hperm]⟩
  · rw [hbc]
    exact hmapsum _ hperm

/-- Witness for `arithmetic_cumulative_invariant` at `[3, 1, 2, 1]`. -/
theorem arithmetic_cumulative_invariant_witness :
    (([3, 1, 2, 1] : List Nat) ≠ []) ∧
      ((∀ out md st, ArithmeticCompressor.compress freshArith [3, 1, 2, 1] = .ok (out, md, st) →
        md.cumulative_freq = some (buildCumulative (buildFreq [3, 1, 2, 1])).1 ∧
        md.total_freq = some (buildCumulative (buildFreq [3, 1, 2, 1])).2) ∧
      List.Pairwise (fun p q : Nat × Nat => p.1 < q.1 ∧ p.2 < q.2)
        (buildCumulative (buildFreq [3, 1, 2, 1])).1 ∧
      (∀ p ∈ (buildCumulative (buildFreq [3, 1, 2, 1])).1,
        p.2 = (((buildFreq [3, 1, 2, 1]).filter (fun q => q.1 < p.1)).map Prod.snd).sum) ∧
      (∃ plast, (buildCumulative (buildFreq [3, 1, 2, 1])).1.getLast? = some plast ∧
        plast.2 + (dictGet (buildFreq [3, 1, 2, 1]) plast.1).getD 0 =
          (buildCumulative (buildFreq [3, 1, 2, 1])).2) ∧
      (buildCumulative (buildFreq [3, 1, 2, 1])).2 = ([3, 1, 2, 1] : List Nat).length) :=
  ⟨by decide, arithmetic_cumulative_invariant [3, 1, 2, 1] (by decide)⟩

/-- C5 counterexample: with the `huffman_codes` field absent, decompress
of the *empty* compressed byte sequence still returns a byte sequence
(the empty one) instead of failing — the early-return guard runs before
any metadata access, so the claim is false for empty compressed input. -/
theorem huffman_missing_codes_empty_still_returns :
    HuffmanCompressor.decompress [] ⟨none, none, none⟩ = .ok [] := rfl

/-- C5 amended: for every *non-empty* compressed input, a metadata record
without `huffman_codes` makes decompress fail fast with the `KeyError`
and never return bytes. -/
theorem huffman_missing_codes_errors (compressed : List Nat) (md : HuffMeta)
    (hne : compressed ≠ []) (hcodes : md.huffman_codes = none) :
    HuffmanCompressor.decompress compressed md = .error "KeyError: huffman_codes" := by
  have hne' : ¬ compressed.isEmpty := by
    rcases compressed with _ | _
    · exact absurd rfl hne
    · simp
  unfold HuffmanCompressor.decompress
  rw [if_neg hne', hcodes]

/-- Witness for `huffman_missing_codes_errors` at `compressed = [255]`
and a metadata record with the code-table field removed. -/
theorem huffman_missing_codes_errors_witness :
    (([255] : List Nat) ≠ []) ∧
      (⟨none, some 0, some 0⟩ : HuffMeta).huffman_codes = none ∧
      HuffmanCompressor.decompress [255] ⟨none, some 0, some 0⟩ =
        .error "KeyError: huffman_codes" :=
  ⟨by decide, rfl, huffman_missing_codes_errors [255] ⟨none, some 0, some 0⟩ (by decide) rfl⟩

/-- C10: all three decoders return the empty byte sequence on empty
compressed input before reading any metadata field, for every metadata
record — even one with every field missing. -/
theorem decompress_empty_returns_empty :
    (∀ md : HuffMeta, HuffmanCompressor.decompress [] md = .ok []) ∧
    (∀ md : LZWMeta, LZWCompressor.decompress [] md = .ok []) ∧
    (∀ md : ArithMeta, ArithmeticCompressor.decompress [] md = .ok []) :=
  ⟨fun _ => rfl, fun _ => rfl, fun _ => rfl⟩


/-! ### `BaseCompressor._fix_json_keys` (`src/src/algorithms/base_compressor.py`)

JSON-ish values: scalars, arrays, and dicts held as insertion-ordered
association lists whose keys are strings or ints.  `key.isdigit()` is
modelled for ASCII digit strings (where `int(key)` succeeds and yields
the decimal value; Python's `isdigit` also accepts some further Unicode
digit characters, which JSON metadata keys never contain).
Recursion is by a fuel bounded below by `JVal.size`, a hand-written
size measure that dominates the nesting depth. -/

inductive JKey where
  | s (v : String)
  | i (v : Int)
deriving DecidableEq

inductive JVal where
  | str (s : String)
  | int (n : Int)
  | null
  | dict (entries : List (JKey × JVal))
  | arr (items : List JVal)

mutual

def JVal.size : JVal → Nat
  | .str _ => 1
  | .int _ => 1
  | .null => 1
  | .dict es => 1 + sizeEntries es
  | .arr xs => 1 + sizeList xs

def sizeEntries : List (JKey × JVal) → Nat
  | [] => 0
  | p :: t => 1 + JVal.size p.2 + sizeEntries t

def sizeList : List JVal → Nat
  | [] => 0
  | x :: t => 1 + JVal.size x + sizeList t

end

/-- `int(key)` on an all-digit string. -/
def digitsToInt (v : String) : Int :=
  (v.toList.foldl (fun a c => 10 * a + (c.toNat - 48)) 0 : Nat)

/-- `if isinstance(key, str) and key.isdigit(): fixed_key = int(key)`. -/
def fixKey : JKey → JKey
  | .s v => if 0 < v.length ∧ v.toList.all Char.isDigit then .i (digitsToInt v) else .s v
  | .i n => .i n

/-- `_fix_json_keys` itself: dicts are rebuilt entry by entry through
Python dict assignment (`pyInsert`, a later coerced key that collides
with an earlier one overwrites it), lists are mapped, scalars returned
unchanged. -/
def pyFixGo : Nat → JVal → JVal
  | 0, v => v
  | fuel + 1, .dict es =>
    .dict (es.foldl (fun acc p => pyInsert acc (fixKey p.1) (pyFixGo fuel p.2)) [])
  | fuel + 1, .arr xs => .arr (xs.map (pyFixGo fuel))
  | _ + 1, v => v

def fixJsonKeys (v : JVal) : JVal := pyFixGo v.size v

/-- The claim's reading of the coercion: replace every digit-string key,
recurse into all values and elements, leave everything else unchanged —
an entrywise map that cannot drop entries. -/
def specFixGo : Nat → JVal → JVal
  | 0, v => v
  | fuel + 1, .dict es => .dict (es.map (fun p => (fixKey p.1, specFixGo fuel p.2)))
  | fuel + 1, .arr xs => .arr (xs.map (specFixGo fuel))
  | _ + 1, v => v

def fixJsonKeysSpec (v : JVal) : JVal := specFixGo v.size v

/-- No two keys of any nested dict coerce to the same key. -/
def noCollideGo : Nat → JVal → Bool
  | 0, _ => true
  | fuel + 1, .dict es =>
    decide ((es.map (fun p => fixKey p.1)).Nodup) && es.all (fun p => noCollideGo fuel p.2)
  | fuel + 1, .arr xs => xs.all (noCollideGo fuel)
  | _ + 1, _ => true

def NoKeyCollision (v : JVal) : Prop := noCollideGo v.size v = true

theorem size_snd_lt_sizeEntries {es : List (JKey × JVal)} {p : JKey × JVal}
    (h : p ∈ es) : JVal.size p.2 < sizeEntries es := by
  induction es with
  | nil => cases h
  | cons q t ih =>
    rw [sizeEntries]
    rcases List.mem_cons.1 h with rfl | h
    · omega
    · have := ih h
      omega

theorem size_lt_sizeList {xs : List JVal} {x : JVal} (h : x ∈ xs) :
    JVal.size x < sizeList xs := by
  induction xs with
  | nil => cases h
  | cons q t ih =>
    rw [sizeList]
    rcases List.mem_cons.1 h with rfl | h
    · omega
    · have := ih h
      omega

theorem jval_size_pos (v : JVal) : 1 ≤ v.size := by
  cases v <;> rw [JVal.size] <;> omega

theorem noCollide_fuel_go_eq (fuel : Nat) :
    ∀ v : JVal, v.size ≤ fuel → noCollideGo fuel v = true →
      pyFixGo fuel v = specFixGo fuel v := by
  induction fuel with
  | zero =>
    intro v hsize _
    have := jval_size_pos v
    omega
  | succ fuel ih =>
    intro v hsize hcol
    cases v with
    | str s => rfl
    | int n => rfl
    | null => rfl
    | dict es =>
      show JVal.dict (es.foldl (fun acc p => pyInsert acc (fixKey p.1) (pyFixGo fuel p.2)) []) =
        JVal.dict (es.map (fun p => (fixKey p.1, specFixGo fuel p.2)))
      have hcol' : (es.map (fun p => fixKey p.1)).Nodup ∧
          ∀ p ∈ es, noCollideGo fuel p.2 = true := by
        have h1 : (decide ((es.map (fun p => fixKey p.1)).Nodup) &&
            es.all (fun p => noCollideGo fuel p.2)) = true := hcol
        rw [Bool.and_eq_true, decide_eq_true_eq, List.all_eq_true] at h1
        exact h1
      have hsize' : ∀ p ∈ es, JVal.size p.2 ≤ fuel := by
        intro p hp
        have h1 := size_snd_lt_sizeEntries hp
        have h2 : JVal.size (.dict es) = 1 + sizeEntries es := rfl
        omega
      have h1 : es.foldl (fun acc p => pyInsert acc (fixKey p.1) (pyFixGo fuel p.2)) [] =
          pyDictOfPairs (es.map (fun p => (fixKey p.1, pyFixGo fuel p.2))) := by
        rw [pyDictOfPairs, List.foldl_map]
      have hkeys : ((es.map (fun p => (fixKey p.1, pyFixGo fuel p.2))).map Prod.fst) =
          es.map (fun p => fixKey p.1) := by
        rw [List.map_map]
        rfl
      have h2 : pyDictOfPairs (es.map (fun p => (fixKey p.1, pyFixGo fuel p.2))) =
          es.map (fun p => (fixKey p.1, pyFixGo fuel p.2)) := by
        apply pyDictOfPairs_eq_self
        rw [hkeys]
        exact hcol'.1
      have h3 : es.map (fun p => (fixKey p.1, pyFixGo fuel p.2)) =
          es.map (fun p => (fixKey p.1, specFixGo fuel p.2)) :=
        List.map_congr_left (fun p hp => by
          rw [ih p.2 (hsize' p hp) (hcol'.2 p hp)])
      rw [h1, h2, h3]
    | arr xs =>
      show JVal.arr (xs.map (pyFixGo fuel)) = JVal.arr (xs.map (specFixGo fuel))
      have hcol' : ∀ x ∈ xs, noCollideGo fuel x = true := by
        have h1 : (xs.all (noCollideGo fuel)) = true := hcol
        rw [List.all_eq_true] at h1
        exact h1
      have hsize' : ∀ x ∈ xs, JVal.size x ≤ fuel := by
        intro x hx
        have h1 := size_lt_sizeList hx
        have h3 : JVal.size (.arr xs) = 1 + sizeList xs := rfl
        omega
      exact congrArg JVal.arr
        (List.map_congr_left (fun x hx => ih x (hsize' x hx) (hcol' x hx)))

/-- C9 counterexample: the dict with keys "1" and "01" has two distinct
string keys that both coerce to the integer 1; Python dict assignment
keeps only one entry, while the claimed exact entrywise replacement would
keep two.  So `_fix_json_keys` is not the exact recursive key replacement
on every nested structure. -/
theorem fix_json_keys_collision_counterexample :
    fixJsonKeys (.dict [(.s "1", .null), (.s "01", .null)]) = .dict [(.i 1, .null)] ∧
    fixJsonKeysSpec (.dict [(.s "1", .null), (.s "01", .null)]) =
      .dict [(.i 1, .null), (.i 1, .null)] ∧
    fixJsonKeys (.dict [(.s "1", .null), (.s "01", .null)]) ≠
      fixJsonKeysSpec (.dict [(.s "1", .null), (.s "01", .null)]) := by
  refine ⟨rfl, rfl, ?_⟩
  intro h
  rw [show fixJsonKeys (.dict [(.s "1", .null), (.s "01", .null)]) =
    .dict [(.i 1, .null)] from rfl] at h
  rw [show fixJsonKeysSpec (.dict [(.s "1", .null), (.s "01", .null)]) =
    .dict [(.i 1, .null), (.i 1, .null)] from rfl] at h
  have hlen := congrArg (fun x => match x with
    | JVal.dict es => es.length
    | _ => 0) h
  simp at hlen

/-- C9 amended: whenever no two keys of any nested dict coerce to the same
key, `_fix_json_keys` is exactly the recursive entrywise coercion — every
digit-string key replaced by its integer, all map values and sequence
elements recursed into, every other key and every scalar unchanged. -/
theorem fix_json_keys_exact_of_no_collision (v : JVal) (h : NoKeyCollision v) :
    fixJsonKeys v = fixJsonKeysSpec v :=
  noCollide_fuel_go_eq v.size v le_rfl h

/-- Witness for `fix_json_keys_exact_of_no_collision` on a nested record
with digit and non-digit keys. -/
theorem fix_json_keys_exact_witness :
    NoKeyCollision (.dict [(.s "7", .arr [.dict [(.s "2", .null)]]), (.s "x", .int 5)]) ∧
      fixJsonKeys (.dict [(.s "7", .arr [.dict [(.s "2", .null)]]), (.s "x", .int 5)]) =
        fixJsonKeysSpec (.dict [(.s "7", .arr [.dict [(.s "2", .null)]]), (.s "x", .int 5)]) :=
  ⟨by unfold NoKeyCollision; decide,
   fix_json_keys_exact_of_no_collision _ (by unfold NoKeyCollision; decide)⟩
